import Mathlib

/-!
A verification development for the WinMD Explorer document workspace.

The definitions below are a shallow embedding of the in-memory document
tree / selection state machine (src/App.tsx, second revision) and of the
AI tool-calling orchestration loops (src/services/geminiService.ts), plus
the MCP connection handler of the Electron main process.

Conventions of the embedding:
- JavaScript arrays become Lean lists; object spreads become structure
  updates.
- JavaScript string truthiness (null / undefined / "" are falsy) is made
  explicit wherever the source relies on it.
- While-loops that walk parent links are modelled with an explicit fuel
  argument; with fuel (files.length + 1) the model agrees with the source
  on every acyclic tree, which is the regime of the stated claims.
- Asynchronous IPC and network calls become oracle functions passed as
  parameters, returning Except String to model promise rejection.
-/

/-- A chat transcript entry owned by a document (src types: ChatMessage). -/
structure ChatMessage where
  id : String
  role : String
  text : String
  deriving Repr, DecidableEq

/-- A document or folder node of the workspace tree (src types: FileDoc). -/
structure FileDoc where
  id : String
  name : String
  content : String
  type : String
  parentId : Option String
  lastModified : Nat
  path : Option String
  isExpanded : Bool
  chatHistory : List ChatMessage
  isUnsaved : Bool
  deriving Repr, DecidableEq

/-- Keyboard modifiers passed to the click handlers. -/
structure Modifiers where
  ctrl : Bool
  shift : Bool
  deriving Repr, DecidableEq

/-- The slice of App state that the tree / tab / selection handlers read
and write. -/
structure AppState where
  files : List FileDoc
  activeFileId : Option String
  openFileIds : List String
  selectedFileIds : List String
  lastFocusedId : Option String
  searchQuery : String
  deriving Repr, DecidableEq

/-- Look a document up by id, as the source does with
files.find(f => f.id === x). -/
def lookup (files : List FileDoc) (x : String) : Option FileDoc :=
  files.find? (fun f => f.id == x)

/-- The parent reference actually followed by the source: a missing doc,
a null parentId, or an empty-string parentId (falsy in JS) all stop the
walk. -/
def parentRef (f : FileDoc) : Option String :=
  match f.parentId with
  | none => none
  | some p => if p == "" then none else some p

/-- One step up the parent chain starting from an id, as computed by
files.find(f => f.id === currentId)?.parentId with JS falsiness. -/
def pstep (files : List FileDoc) (a : String) : Option String :=
  match lookup files a with
  | none => none
  | some f => parentRef f

/-- n-fold iteration of the parent-chain step (none is absorbing). -/
def iter (files : List FileDoc) : Nat → Option String → Option String
  | 0, o => o
  | n + 1, o =>
    match o with
    | none => none
    | some a => iter files n (pstep files a)

/-- The cycle-check walk of handleMoveFile: starting at the target id,
walk parent links looking for fileId.  Fuel exhaustion conservatively
reports a hit; with fuel (files.length + 1) it never occurs on an
acyclic tree. -/
def onChainB (files : List FileDoc) (fileId : String) : Nat → Option String → Bool
  | _, none => false
  | 0, some _ => true
  | n + 1, some c =>
    if c == fileId then true else onChainB files fileId n (pstep files c)

/-- Fuel that is always sufficient on an acyclic tree. -/
def cycleFuel (files : List FileDoc) : Nat :=
  files.length + 1

/-- handleMoveFile skips an id when it equals the target or occurs on the
ancestor chain of the target.  The walk here also starts on an
empty-string target, where the JS while (currentId) would not; the two
differ only on a tree containing a document whose id is the empty string,
which the app never creates. -/
def isSkipped (files : List FileDoc) (tgt : Option String) (fid : String) : Bool :=
  (some fid == tgt) || onChainB files fid (cycleFuel files) tgt

/-- The ids of handleMoveFile that survive the self-target and cycle
checks (movesToProcess in the source), in order. -/
def movesToProcess (files : List FileDoc) (fileIds : List String) (tgt : Option String) :
    List String :=
  fileIds.filter (fun fid => !(isSkipped files tgt fid))

/-- The elementwise update applied by handleMoveFile once at least one id
survives the checks: reparent moved ids, force the target open (the
source guards on the JS truthiness of targetFolderId). -/
def moveTransform (moves : List String) (tgt : Option String) (f : FileDoc) : FileDoc :=
  if moves.contains f.id then { f with parentId := tgt }
  else
    match tgt with
    | none => f
    | some t => if t == "" then f else if f.id == t then { f with isExpanded := true } else f

/-- src/App.tsx handleMoveFile: reparent every non-skipped id to the
target and force the target folder open; if every id is skipped the state
is returned untouched. -/
def handleMoveFile (files : List FileDoc) (fileIds : List String) (tgt : Option String) :
    List FileDoc :=
  let moves := movesToProcess files fileIds tgt
  if moves.isEmpty then files
  else files.map (moveTransform moves tgt)

/-- src/App.tsx handleToggleFolder: flip the isExpanded flag of the
document with the given id (the source does not check the kind). -/
def handleToggleFolder (files : List FileDoc) (folderId : String) : List FileDoc :=
  files.map (fun f => if f.id == folderId then { f with isExpanded := !f.isExpanded } else f)

/-- Set isExpanded := true on the first list entry with the given id, as
newFiles[parentIndex] = \x7b ...newFiles[parentIndex], isExpanded: true \x7d
does after a findIndex. -/
def setExpandedFirst : List FileDoc → String → List FileDoc
  | [], _ => []
  | f :: rest, pid =>
    if f.id == pid then { f with isExpanded := true } :: rest
    else f :: setExpandedFirst rest pid

/-- The ancestor-expanding walk of ensureVisible.  The traversal reads
parent links from the original list (the source builds its Map once; the
Map lookup is modelled by find?, which agrees with it whenever ids are
unique) and applies updates to the accumulator.  Fuel exhaustion stops
the walk; it never occurs on an acyclic tree with fuel
(files.length + 1). -/
def ensureVisibleGo (orig : List FileDoc) : Nat → List FileDoc → FileDoc → List FileDoc
  | 0, acc, _ => acc
  | n + 1, acc, cur =>
    match parentRef cur with
    | none => acc
    | some pid =>
      match lookup orig pid with
      | none => acc
      | some parent =>
        let acc' := if parent.isExpanded then acc else setExpandedFirst acc pid
        ensureVisibleGo orig n acc' parent

/-- src/App.tsx ensureVisible: walk the ancestor chain of targetId,
force-expanding every collapsed ancestor. -/
def ensureVisible (files : List FileDoc) (targetId : String) : List FileDoc :=
  match lookup files targetId with
  | none => files
  | some cur => ensureVisibleGo files (cycleFuel files) files cur

/-- src/App.tsx handleCloseTab: drop the id from the open tabs; if it was
active, activate the last remaining tab (or clear everything); otherwise
just drop it from the selection if present. -/
def handleCloseTab (s : AppState) (id : String) : AppState :=
  let newOpenIds := s.openFileIds.filter (fun fid => fid != id)
  if s.activeFileId == some id then
    match newOpenIds.getLast? with
    | some nextId =>
      { s with
        files := ensureVisible s.files nextId
        openFileIds := newOpenIds
        activeFileId := some nextId
        selectedFileIds := [nextId]
        lastFocusedId := some nextId }
    | none =>
      { s with
        openFileIds := newOpenIds
        activeFileId := none
        selectedFileIds := []
        lastFocusedId := none }
  else
    { s with
      openFileIds := newOpenIds
      selectedFileIds :=
        if s.selectedFileIds.contains id then s.selectedFileIds.filter (fun sid => sid != id)
        else s.selectedFileIds }

/-- JS truthiness of a nullable string: null / undefined / "" are falsy. -/
def strTruthy : Option String → Option String
  | none => none
  | some x => if x == "" then none else some x

/-- Index of the first occurrence of x, or none (indexOf === -1). -/
def idxOf (l : List String) (x : String) : Option Nat :=
  match l with
  | [] => none
  | y :: ys => if y == x then some 0 else (idxOf ys x).map (· + 1)

/-- JS array.slice(min, max + 1): the elements at indices min..max. -/
def sliceIncl (l : List String) (min max : Nat) : List String :=
  (l.drop min).take (max + 1 - min)

/-- Array.from(new Set(l)): deduplicate keeping first occurrences. -/
def jsSetDedupGo (seen : List String) : List String → List String
  | [] => []
  | x :: xs =>
    if seen.contains x then jsSetDedupGo seen xs
    else x :: jsSetDedupGo (x :: seen) xs

def jsSetDedup (l : List String) : List String :=
  jsSetDedupGo [] l

/-- src/App.tsx handleTabClick: activate the clicked tab, then compute the
new selection from the modifiers against the open-tab ordering. -/
def handleTabClick (s : AppState) (id : String) (m : Modifiers) : AppState :=
  let files' := ensureVisible s.files id
  let newSelection :=
    match (if m.shift then strTruthy s.lastFocusedId else none) with
    | some lf =>
      if s.openFileIds.contains lf then
        match idxOf s.openFileIds lf, idxOf s.openFileIds id with
        | some startIdx, some endIdx =>
          let range := sliceIncl s.openFileIds (Nat.min startIdx endIdx) (Nat.max startIdx endIdx)
          if m.ctrl then jsSetDedup (s.selectedFileIds ++ range) else range
        | _, _ => [id]
      else if m.ctrl then jsSetDedup (s.selectedFileIds ++ [id])
      else [id]
    | none =>
      if m.ctrl then jsSetDedup (s.selectedFileIds ++ [id])
      else [id]
  { s with
    files := files'
    activeFileId := some id
    selectedFileIds := newSelection
    lastFocusedId := some id }

/-- Stable insertion of a doc into an already-sorted list under a strict
JS comparator (equal keys keep their original relative order). -/
def sortInsert (lt : FileDoc → FileDoc → Bool) (x : FileDoc) : List FileDoc → List FileDoc
  | [] => [x]
  | y :: ys => if lt x y then x :: y :: ys else y :: sortInsert lt x ys

/-- Stable sort matching Array.prototype.sort with a strict comparator. -/
def stableSort (lt : FileDoc → FileDoc → Bool) : List FileDoc → List FileDoc
  | [] => []
  | x :: xs => sortInsert lt x (stableSort lt xs)

/-- The sidebar child ordering: folders before files, then by name.
String order stands in for localeCompare. -/
def childLt (a b : FileDoc) : Bool :=
  if a.type == b.type then a.name < b.name
  else a.type == "folder"

/-- Leading-match test on character lists. -/
def leadMatch : List Char → List Char → Bool
  | [], _ => true
  | _ :: _, [] => false
  | a :: as, b :: bs => a == b && leadMatch as bs

/-- Contiguous-sublist test on character lists (String.prototype.includes). -/
def hasSubList (needle : List Char) : List Char → Bool
  | [] => needle.isEmpty
  | h :: t => leadMatch needle (h :: t) || hasSubList needle t

def strIncludes (hay needle : String) : Bool :=
  hasSubList needle.data hay.data

/-- Depth-first pre-order traversal of the expanded tree, with sorted
children, as in getVisibleFileIds.  Fuel bounds the recursion depth. -/
def visibleTraverse (files : List FileDoc) : Nat → Option String → List String
  | 0, _ => []
  | n + 1, pid =>
    let children := stableSort childLt (files.filter (fun f => f.parentId == pid))
    children.flatMap (fun c =>
      c.id :: (if c.type == "folder" && c.isExpanded then visibleTraverse files n (some c.id) else []))

/-- src/App.tsx getVisibleFileIds: the filtered search-match list when a
query is active, else the depth-first traversal of expanded folders. -/
def getVisibleFileIds (s : AppState) : List String :=
  if s.searchQuery.trim != "" then
    let query := s.searchQuery.toLower
    (s.files.filter (fun f => strIncludes f.name.toLower query)).map (·.id)
  else
    visibleTraverse s.files (s.files.length + 1) none

/-- src/App.tsx handleSidebarItemClick: range / toggle selection against
the visible ordering; a plain click on a file additionally opens its tab
and makes it active. -/
def handleSidebarItemClick (s : AppState) (id : String) (m : Modifiers) : AppState :=
  let files' := ensureVisible s.files id
  let selFocus : List String × Option String :=
    match (if m.shift then strTruthy s.lastFocusedId else none) with
    | some lf =>
      let visibleIds := getVisibleFileIds s
      match idxOf visibleIds lf, idxOf visibleIds id with
      | some startIdx, some endIdx =>
        let range := sliceIncl visibleIds (Nat.min startIdx endIdx) (Nat.max startIdx endIdx)
        (if m.ctrl then jsSetDedup (s.selectedFileIds ++ range) else range, s.lastFocusedId)
      | _, _ => ([id], some id)
    | none =>
      if m.ctrl then
        (if s.selectedFileIds.contains id then s.selectedFileIds.filter (fun sid => sid != id)
         else s.selectedFileIds ++ [id], some id)
      else ([id], some id)
  let newSelection :=
    if !m.ctrl && !m.shift && selFocus.1.isEmpty then [id] else selFocus.1
  let base :=
    { s with
      files := files'
      selectedFileIds := newSelection
      lastFocusedId := selFocus.2 }
  if !m.ctrl && !m.shift then
    match lookup s.files id with
    | some item =>
      if item.type == "file" then
        { base with
          openFileIds := if s.openFileIds.contains id then s.openFileIds else s.openFileIds ++ [id]
          activeFileId := some id }
      else base
    | none => base
  else base

/-- A persisted document payload as read back from LocalStorage; fields
introduced after the first release may be absent (none). -/
structure StoredDoc where
  id : String
  name : String
  content : String
  lastModified : Nat
  typeF : Option String
  parentIdF : Option (Option String)
  pathF : Option String
  isExpandedF : Option Bool
  chatHistoryF : Option (List ChatMessage)
  isUnsavedF : Option Bool
  deriving Repr, DecidableEq

/-- The migration-on-load of src/App.tsx: synthesize defaults for missing
fields with the JS truthiness the source uses: f.type defaulting to the
string file, f.parentId defaulting to null, f.isExpanded kept unless
undefined, f.chatHistory defaulting to the empty list, f.isUnsaved
defaulting to false. -/
def migrateDoc (sd : StoredDoc) : FileDoc :=
  { id := sd.id
    name := sd.name
    content := sd.content
    lastModified := sd.lastModified
    type := match sd.typeF with
            | none => "file"
            | some t => if t == "" then "file" else t
    parentId := match sd.parentIdF with
                | none => none
                | some none => none
                | some (some p) => if p == "" then none else some p
    path := sd.pathF
    isExpanded := match sd.isExpandedF with
                  | none => false
                  | some b => b
    chatHistory := match sd.chatHistoryF with
                   | none => []
                   | some h => h
    isUnsaved := match sd.isUnsavedF with
                 | none => false
                 | some b => b }

/-- Loading a persisted list applies the migration elementwise. -/
def loadFiles (l : List StoredDoc) : List FileDoc :=
  l.map migrateDoc

/-- Serializing a current-format document stores every field. -/
def serializeDoc (d : FileDoc) : StoredDoc :=
  { id := d.id
    name := d.name
    content := d.content
    lastModified := d.lastModified
    typeF := some d.type
    parentIdF := some d.parentId
    pathF := d.path
    isExpandedF := some d.isExpanded
    chatHistoryF := some d.chatHistory
    isUnsavedF := some d.isUnsaved }

/-- A tool call requested by an OpenAI-compatible model
(toolCall.function.name / .arguments kept abstract as strings). -/
structure ToolCall where
  id : String
  fname : String
  args : String
  deriving Repr, DecidableEq

/-- An OpenAI-compatible chat message as the loop manipulates it. -/
structure OAIMessage where
  role : String
  content : String
  tool_call_id : Option String := none
  name : Option String := none
  tool_calls : List ToolCall := []
  deriving Repr, DecidableEq

/-- A tool descriptor as built by getMcpTools: function name, description
and the _serverId affinity tag (None when the server did not provide
one). -/
structure ToolDef where
  fname : String
  description : String
  serverId : Option String
  deriving Repr, DecidableEq

/-- One content block of an MCP tool result; serialized is the
JSON.stringify fallback representation of the block. -/
structure MCPPart where
  textF : Option String
  serialized : String
  deriving Repr, DecidableEq

/-- An MCP tool result; contentF = none models a falsy result or a result
without a content array, serialized its JSON.stringify form. -/
structure MCPResult where
  contentF : Option (List MCPPart)
  serialized : String
  deriving Repr, DecidableEq

/-- Normalization of an MCP result into one text blob:
toolResult.content.map(c => c.text || JSON.stringify(c)).join(newline),
falling back to JSON.stringify(toolResult). -/
def normalizeResult (r : MCPResult) : String :=
  match r.contentF with
  | some parts =>
    String.intercalate "\n"
      (parts.map (fun p =>
        match p.textF with
        | some t => if t == "" then p.serialized else t
        | none => p.serialized))
  | none => r.serialized

/-- The oracle for the mcp-call-tool IPC invocation; may reject. -/
def ToolOracle : Type :=
  String → String → String → Except String MCPResult

/-- Tool execution of the OpenAI-compatible loop for one requested call:
resolve the descriptor, dispatch over IPC, normalize; every failure is
folded into an error text, never a thrown exception. -/
def execToolCallLocal (tools : List ToolDef) (ipcAvailable : Bool) (oracle : ToolOracle)
    (tc : ToolCall) : String :=
  match tools.find? (fun t => t.fname == tc.fname) with
  | some toolDef =>
    match strTruthy toolDef.serverId with
    | some sid =>
      if ipcAvailable then
        match oracle sid tc.fname tc.args with
        | .ok r => normalizeResult r
        | .error msg => "Error executing tool: " ++ msg
      else "Error: MCP tools are only available in the desktop app."
    | none => "Error: MCP tools are only available in the desktop app."
  | none => "Error: MCP tools are only available in the desktop app."

/-- The tool-result message appended for one call (role tool, the id and
name of the originating call, the normalized or error text). -/
def mkToolMsg (tools : List ToolDef) (ipcAvailable : Bool) (oracle : ToolOracle)
    (tc : ToolCall) : OAIMessage :=
  { role := "tool"
    content := execToolCallLocal tools ipcAvailable oracle tc
    tool_call_id := some tc.id
    name := some tc.fname
    tool_calls := [] }

/-- The oracle for one model request of the OpenAI-compatible backend
(IPC chat-local-ai or the fetch fallback); may reject. -/
def ModelOracle : Type :=
  List OAIMessage → Except String OAIMessage

/-- The turn loop of chatWithLocalAI.  The result pairs the returned text
(or the propagated transport error) with the number of model-backend
round trips performed.  Fuel 0 is the max-turns exit of the while loop. -/
def chatLocalGo (model : ModelOracle) (tools : List ToolDef) (ipcAvailable : Bool)
    (oracle : ToolOracle) : Nat → List OAIMessage → Except String String × Nat
  | 0, _ => (.ok "Error: Maximum conversation turns exceeded during tool execution.", 0)
  | n + 1, msgs =>
    match model msgs with
    | .error e => (.error e, 1)
    | .ok resp =>
      if resp.tool_calls.isEmpty then (.ok resp.content, 1)
      else
        let toolMsgs := resp.tool_calls.map (mkToolMsg tools ipcAvailable oracle)
        let r := chatLocalGo model tools ipcAvailable oracle n (msgs ++ resp :: toolMsgs)
        (r.1, r.2 + 1)

/-- src/services/geminiService.ts chatWithLocalAI with MAX_TURNS = 10. -/
def chatWithLocalAI (model : ModelOracle) (tools : List ToolDef) (ipcAvailable : Bool)
    (oracle : ToolOracle) (messages : List OAIMessage) : Except String String × Nat :=
  chatLocalGo model tools ipcAvailable oracle 10 messages

/-- A function call requested by the Gemini backend. -/
structure GeminiFC where
  name : String
  args : String
  deriving Repr, DecidableEq

/-- A Gemini model response: text and the requested function calls. -/
structure GeminiResponse where
  text : String
  functionCalls : List GeminiFC
  deriving Repr, DecidableEq

/-- One chat.sendMessage payload: the user message or a batch of wrapped
functionResponse parts (name, result text). -/
inductive GeminiSend where
  | userText (s : String)
  | functionResponses (l : List (String × String))
  deriving Repr, DecidableEq

/-- The oracle for chat.sendMessage; the SDK session carries the history,
so the oracle sees the list of payloads sent so far. -/
def GeminiOracle : Type :=
  List GeminiSend → Except String GeminiResponse

/-- Tool execution of the Gemini branch for one function call (same
resolution as the local branch, different error texts). -/
def execToolCallGemini (tools : List ToolDef) (ipcAvailable : Bool) (oracle : ToolOracle)
    (fc : GeminiFC) : String :=
  match tools.find? (fun t => t.fname == fc.name) with
  | some toolDef =>
    match strTruthy toolDef.serverId with
    | some sid =>
      if ipcAvailable then
        match oracle sid fc.name fc.args with
        | .ok r => normalizeResult r
        | .error msg => "Error: " ++ msg
      else "Error: Tool unavailable."
    | none => "Error: Tool unavailable."
  | none => "Error: Tool unavailable."

/-- The final reply of the Gemini branch:
response.text || localized default. -/
def geminiFinalText (lang : String) (resp : GeminiResponse) : String :=
  if resp.text == "" then
    if lang == "zh" then "我没听懂。" else "I couldn\x27t understand that."
  else resp.text

/-- The Gemini tool loop (while turn < MAX_GEMINI_TURNS).  Counts the
additional sendMessage round trips it performs; at fuel 0 the loop is
left and the last response surfaces as text. -/
def chatGeminiGo (model : GeminiOracle) (tools : List ToolDef) (ipcAvailable : Bool)
    (oracle : ToolOracle) (lang : String) :
    Nat → GeminiResponse → List GeminiSend → Except String String × Nat
  | 0, resp, _ => (.ok (geminiFinalText lang resp), 0)
  | n + 1, resp, hist =>
    if resp.functionCalls.isEmpty then (.ok (geminiFinalText lang resp), 0)
    else
      let frs := resp.functionCalls.map (fun fc => (fc.name, execToolCallGemini tools ipcAvailable oracle fc))
      let hist' := hist ++ [GeminiSend.functionResponses frs]
      match model hist' with
      | .error e => (.error e, 1)
      | .ok resp' =>
        let r := chatGeminiGo model tools ipcAvailable oracle lang n resp' hist'
        (r.1, r.2 + 1)

/-- The Gemini branch of chatWithDocument: one initial sendMessage, then
the tool loop with MAX_GEMINI_TURNS = 10. -/
def chatGemini (model : GeminiOracle) (tools : List ToolDef) (ipcAvailable : Bool)
    (oracle : ToolOracle) (lang : String) (newMessage : String) : Except String String × Nat :=
  match model [GeminiSend.userText newMessage] with
  | .error e => (.error e, 1)
  | .ok resp =>
    let r := chatGeminiGo model tools ipcAvailable oracle lang 10 resp [GeminiSend.userText newMessage]
    (r.1, r.2 + 1)

/-- An MCP server config entry (src types: MCPServerConfig). -/
structure MCPConfig where
  id : String
  name : String
  enabled : Bool
  transportType : String
  deriving Repr, DecidableEq

/-- One reported outcome of the mcp-connect handler. -/
structure MCPOutcome where
  id : String
  status : String
  error : Option String
  deriving Repr, DecidableEq

/-- The oracle for building a transport and client.connect(transport). -/
def ConnectOracle : Type :=
  MCPConfig → Except String Unit

/-- The per-config connection loop body of the mcp-connect handler:
disabled configs and unknown transport types are skipped without a
result; a connect failure is reported and does not stop the loop. -/
def mcpConnectStep (connect : ConnectOracle) (acc : List String × List MCPOutcome)
    (cfg : MCPConfig) : List String × List MCPOutcome :=
  if !cfg.enabled then acc
  else if cfg.transportType != "stdio" && cfg.transportType != "sse" then acc
  else
    match connect cfg with
    | .ok _ => (acc.1 ++ [cfg.id], acc.2 ++ [{ id := cfg.id, status := "connected", error := none }])
    | .error e => (acc.1, acc.2 ++ [{ id := cfg.id, status := "error", error := some e }])

/-- The mcp-connect IPC handler of src/unnamed/part_008: close and clear
every previously-open client, then connect each config in order.  Returns
the new live client-id set and the reported outcomes; prevClients is the
client set open before the call. -/
def mcpConnect (prevClients : List String) (configs : List MCPConfig)
    (connect : ConnectOracle) : List String × List MCPOutcome :=
  let _ := prevClients
  configs.foldl (mcpConnectStep connect) ([], [])

/-- One parent-link step as a relation on ids. -/
def stepR (files : List FileDoc) (a b : String) : Prop :=
  pstep files a = some b

/-- b is a strict ancestor of a: following parent links from a reaches b
in one or more steps. -/
def Reaches (files : List FileDoc) (a b : String) : Prop :=
  Relation.TransGen (stepR files) a b

/-- The acyclicity invariant of the document tree: following parent links
from any id never revisits that id. -/
def Acyclic (files : List FileDoc) : Prop :=
  ∀ a : String, ¬ Reaches files a a

/-- The semantic skip condition of handleMoveFile for one id: the target
equals the id, or the id occurs on the ancestor chain of the target. -/
def SkippedSem (files : List FileDoc) (tgt : Option String) (fid : String) : Prop :=
  tgt = some fid ∨ ∃ t, tgt = some t ∧ Reaches files t fid

/-- An executable acyclicity checker (sound on any input; used to
discharge the Acyclic hypothesis on concrete trees). -/
def acyclicCheck (files : List FileDoc) : Bool :=
  files.all (fun f => !(onChainB files f.id (cycleFuel files) (pstep files f.id)))

/-- The parent reference written by a move, as seen through pstep. -/
def tgtRef (tgt : Option String) : Option String :=
  match tgt with
  | none => none
  | some t => if t == "" then none else some t

/-- Concrete example tree: a root folder with one child file, plus one
root file.  Used to instantiate the tree theorems. -/
def exFolder : FileDoc :=
  { id := "a", name := "Notes", content := "", type := "folder", parentId := none,
    lastModified := 0, path := none, isExpanded := false, chatHistory := [], isUnsaved := false }

def exRootFile : FileDoc :=
  { id := "b", name := "todo.md", content := "- buy milk", type := "file", parentId := none,
    lastModified := 1, path := none, isExpanded := false, chatHistory := [], isUnsaved := false }

def exChildFile : FileDoc :=
  { id := "c", name := "sub.md", content := "sub", type := "file", parentId := some "a",
    lastModified := 2, path := none, isExpanded := false, chatHistory := [], isUnsaved := false }

def exFiles : List FileDoc :=
  [exFolder, exRootFile, exChildFile]

/-- Concrete open-tab scenario of the spec: tabs [A, B, C], B active. -/
def docA : FileDoc :=
  { id := "A", name := "a.md", content := "", type := "file", parentId := none,
    lastModified := 0, path := none, isExpanded := false, chatHistory := [], isUnsaved := false }

def docB : FileDoc :=
  { id := "B", name := "b.md", content := "", type := "file", parentId := none,
    lastModified := 0, path := none, isExpanded := false, chatHistory := [], isUnsaved := false }

def docC : FileDoc :=
  { id := "C", name := "c.md", content := "", type := "file", parentId := none,
    lastModified := 0, path := none, isExpanded := false, chatHistory := [], isUnsaved := false }

def tabsState : AppState :=
  { files := [docA, docB, docC], activeFileId := some "B", openFileIds := ["A", "B", "C"],
    selectedFileIds := ["B"], lastFocusedId := some "B", searchQuery := "" }

/-- A Gemini oracle that requests a tool call on every round trip. -/
def alwaysFCOracle : GeminiOracle :=
  fun _ => .ok { text := "", functionCalls := [{ name := "t", args := "" }] }

/-- An OpenAI-compatible model oracle that requests a tool call on every
round trip. -/
def alwaysToolsModel : ModelOracle :=
  fun _ => .ok { role := "assistant", content := "",
                 tool_calls := [{ id := "1", fname := "t", args := "" }] }

/-- A tool oracle returning a result without a content array. -/
def noContentToolOracle : ToolOracle :=
  fun _ _ _ => .ok { contentF := none, serialized := "null" }

/-- Concrete MCP configs for the connect theorems. -/
def disabledCfg : MCPConfig :=
  { id := "srv1", name := "disabled server", enabled := false, transportType := "stdio" }

def enabledCfg : MCPConfig :=
  { id := "srv2", name := "enabled server", enabled := true, transportType := "sse" }

def okConnect : ConnectOracle :=
  fun _ => .ok ()

/-- A pre-migration payload carrying only the original fields. -/
def legacyStored : StoredDoc :=
  { id := "w", name := "Welcome.md", content := "hi", lastModified := 5,
    typeF := none, parentIdF := none, pathF := none, isExpandedF := none,
    chatHistoryF := none, isUnsavedF := none }

/-- A current-format document exercising every field. -/
def modernDoc : FileDoc :=
  { id := "m", name := "m.md", content := "body", type := "file", parentId := some "a",
    lastModified := 9, path := some "/tmp/m.md", isExpanded := true,
    chatHistory := [{ id := "m1", role := "user", text := "hello" }], isUnsaved := true }

def exSingle : List FileDoc :=
  [exRootFile]

/-- A small sidebar scenario: the example tree, nothing open yet. -/
def sideState : AppState :=
  { files := exFiles, activeFileId := none, openFileIds := [], selectedFileIds := [],
    lastFocusedId := none, searchQuery := "" }

/-- A tool oracle whose every invocation rejects. -/
def failToolOracle : ToolOracle :=
  fun _ _ _ => .error "boom"

/-- A registered tool descriptor bound to server srv. -/
def exTool : ToolDef :=
  { fname := "t", description := "test tool", serverId := some "srv" }

theorem iter_none (files : List FileDoc) (n : Nat) : iter files n none = none := by
  cases n <;> rfl

theorem iter_succ_some (files : List FileDoc) (n : Nat) (a : String) :
    iter files (n + 1) (some a) = iter files n (pstep files a) := rfl

theorem iter_add (files : List FileDoc) (n m : Nat) (o : Option String) :
    iter files (n + m) o = iter files m (iter files n o) := by
  induction n generalizing o with
  | zero => simp [iter]
  | succ k ih =>
    have h : k + 1 + m = (k + m) + 1 := by omega
    rw [h]
    cases o with
    | none => rw [iter_none, iter_none, iter_none]
    | some a =>
      rw [iter_succ_some, iter_succ_some, ih]

theorem reaches_iff_iter (files : List FileDoc) (a b : String) :
    Reaches files a b ↔ ∃ n, iter files (n + 1) (some a) = some b := by
  constructor
  · intro h
    induction h with
    | single h1 => exact ⟨0, h1⟩
    | tail _ h2 ih =>
      obtain ⟨n, hn⟩ := ih
      refine ⟨n + 1, ?_⟩
      rw [iter_add files (n + 1) 1, hn]
      exact h2
  · rintro ⟨n, hn⟩
    induction n generalizing a with
    | zero => exact Relation.TransGen.single hn
    | succ m ih =>
      rw [iter_succ_some] at hn
      cases hp : pstep files a with
      | none => rw [hp, iter_none] at hn; exact absurd hn (by simp)
      | some c =>
        rw [hp] at hn
        exact Relation.TransGen.head hp (ih c hn)

theorem onChain_false_iterates (files : List FileDoc) (fid : String) (F : Nat)
    (o : Option String) (h : onChainB files fid F o = false) :
    ∀ n c, iter files n o = some c → c ≠ fid := by
  induction F generalizing o with
  | zero =>
    cases o with
    | none => intro n c hc; rw [iter_none] at hc; exact absurd hc (by simp)
    | some a => simp [onChainB] at h
  | succ F ih =>
    cases o with
    | none => intro n c hc; rw [iter_none] at hc; exact absurd hc (by simp)
    | some c0 =>
      rw [onChainB] at h
      by_cases hc0 : c0 == fid
      · rw [hc0] at h; simp at h
      · rw [if_neg (by simpa using hc0)] at h
        intro n c hc
        cases n with
        | zero =>
          simp [iter] at hc
          subst hc
          simpa using hc0
        | succ m =>
          rw [iter_succ_some] at hc
          exact ih (pstep files c0) h m c hc

theorem onChain_false_not_reaches (files : List FileDoc) (fid t : String) (F : Nat)
    (h : onChainB files fid F (some t) = false) :
    fid ≠ t ∧ ¬ Reaches files t fid := by
  constructor
  · intro he
    exact onChain_false_iterates files fid F (some t) h 0 t rfl he.symm
  · intro hr
    obtain ⟨n, hn⟩ := (reaches_iff_iter files t fid).mp hr
    exact onChain_false_iterates files fid F (some t) h (n + 1) fid hn rfl

theorem onChain_true_cases (files : List FileDoc) (fid : String) (F : Nat)
    (o : Option String) (h : onChainB files fid F o = true) :
    (∃ n, iter files n o = some fid) ∨ iter files F o ≠ none := by
  induction F generalizing o with
  | zero =>
    cases o with
    | none => simp [onChainB] at h
    | some c => right; simp [iter]
  | succ F ih =>
    cases o with
    | none => simp [onChainB] at h
    | some c =>
      rw [onChainB] at h
      by_cases hc : c == fid
      · left
        exact ⟨0, by simp [iter]; exact (by simpa using hc : c = fid)⟩
      · rw [if_neg (by simpa using hc)] at h
        rcases ih (pstep files c) h with ⟨n, hn⟩ | hne
        · left; exact ⟨n + 1, by rw [iter_succ_some]; exact hn⟩
        · right; rw [iter_succ_some]; exact hne

theorem iter_none_mono (files : List FileDoc) {n m : Nat} {o : Option String}
    (h : iter files n o = none) (hnm : n ≤ m) : iter files m o = none := by
  obtain ⟨k, rfl⟩ := Nat.exists_eq_add_of_le hnm
  rw [iter_add, h, iter_none]

theorem acyclic_iter_none (files : List FileDoc) (hA : Acyclic files) (t : String) :
    iter files (cycleFuel files) (some t) = none := by
  by_contra h
  have hdef : ∀ i, i ≤ files.length + 1 → iter files i (some t) ≠ none := by
    intro i hi hnone
    exact h (iter_none_mono files hnone (by simpa [cycleFuel] using hi))
  have hsome : ∀ i, i ≤ files.length + 1 → ∃ c, iter files i (some t) = some c := by
    intro i hi
    cases hc : iter files i (some t) with
    | none => exact absurd hc (hdef i hi)
    | some c => exact ⟨c, rfl⟩
  have hinj : ∀ i ≤ files.length + 1, ∀ j ≤ files.length + 1, ∀ c : String,
      iter files i (some t) = some c → iter files j (some t) = some c → i = j := by
    have key : ∀ i j, i < j → j ≤ files.length + 1 → ∀ c : String,
        iter files i (some t) = some c → iter files j (some t) = some c → False := by
      intro i j hij hj c hci hcj
      obtain ⟨d, rfl⟩ := Nat.exists_eq_add_of_lt hij
      have : iter files (i + d + 1) (some t) = iter files (d + 1) (some c) := by
        have := iter_add files i (d + 1) (some t)
        rw [hci] at this
        rw [← this]
        ring_nf
      rw [hcj] at this
      exact hA c ((reaches_iff_iter files c c).mpr ⟨d, this.symm⟩)
    intro i hi j hj c hci hcj
    rcases Nat.lt_trichotomy i j with hij | hij | hij
    · exact absurd (key i j hij hj c hci hcj) (by simp)
    · exact hij
    · exact absurd (key j i hij hi c hcj hci) (by simp)
  have hmem : ∀ i, i ≤ files.length → ((iter files i (some t)).getD "") ∈ files.map FileDoc.id := by
    intro i hi
    obtain ⟨c, hc⟩ := hsome i (by omega)
    have hnext : iter files (i + 1) (some t) = pstep files c := by
      rw [iter_add files i 1, hc]
      rfl
    have hpne : pstep files c ≠ none := by
      rw [← hnext]
      exact hdef (i + 1) (by omega)
    rw [hc]
    simp only [Option.getD_some]
    unfold pstep at hpne
    cases hl : lookup files c with
    | none => rw [hl] at hpne; exact absurd rfl hpne
    | some f =>
      have hfm : f ∈ files := List.mem_of_find?_eq_some hl
      have hfid : f.id == c := by
        have := List.find?_some hl
        simpa using this
      exact List.mem_map.mpr ⟨f, hfm, by simpa using hfid⟩
  set l : List String :=
    (List.range (files.length + 1)).map (fun i => (iter files i (some t)).getD "") with hl
  have hnd : l.Nodup := by
    refine List.Nodup.map_on ?_ (List.nodup_range _)
    intro i hi j hj hval
    have hi' : i ≤ files.length + 1 := by
      have := List.mem_range.mp hi; omega
    have hj' : j ≤ files.length + 1 := by
      have := List.mem_range.mp hj; omega
    obtain ⟨ci, hci⟩ := hsome i hi'
    obtain ⟨cj, hcj⟩ := hsome j hj'
    rw [hci, hcj] at hval
    simp only [Option.getD_some] at hval
    subst hval
    exact hinj i hi' j hj' ci hci hcj
  have hlen : l.length = files.length + 1 := by
    simp [hl]
  have hsub : ∀ x ∈ l, x ∈ files.map FileDoc.id := by
    intro x hx
    obtain ⟨i, hi, rfl⟩ := List.mem_map.mp hx
    exact hmem i (by have := List.mem_range.mp hi; omega)
  have hcard1 : l.toFinset.card = files.length + 1 := by
    rw [List.toFinset_card_of_nodup hnd, hlen]
  have hcard2 : l.toFinset.card ≤ (files.map FileDoc.id).toFinset.card := by
    apply Finset.card_le_card
    intro x hx
    exact List.mem_toFinset.mpr (hsub x (List.mem_toFinset.mp hx))
  have hcard3 : (files.map FileDoc.id).toFinset.card ≤ files.length := by
    have := List.toFinset_card_le (files.map FileDoc.id)
    simpa using this
  omega

theorem acyclic_of_check (files : List FileDoc) (h : acyclicCheck files = true) :
    Acyclic files := by
  intro a hr
  obtain ⟨n, hn⟩ := (reaches_iff_iter files a a).mp hr
  rw [iter_succ_some] at hn
  cases hl : lookup files a with
  | none =>
    rw [show pstep files a = none by unfold pstep; rw [hl], iter_none] at hn
    exact absurd hn (by simp)
  | some f =>
    have hfm : f ∈ files := List.mem_of_find?_eq_some hl
    have hfid : f.id = a := by
      have := List.find?_some hl
      simpa using this
    have hall := List.all_eq_true.mp h f hfm
    have hfalse : onChainB files f.id (cycleFuel files) (pstep files f.id) = false := by
      simpa using hall
    rw [hfid] at hfalse
    exact onChain_false_iterates files a (cycleFuel files) (pstep files a) hfalse n a hn rfl

theorem onChain_complete (files : List FileDoc) (fid t : String) (F : Nat)
    (h : fid = t ∨ Reaches files t fid) :
    onChainB files fid F (some t) = true := by
  cases hb : onChainB files fid F (some t) with
  | true => rfl
  | false =>
    obtain ⟨hne, hnr⟩ := onChain_false_not_reaches files fid t F hb
    rcases h with h | h
    · exact absurd h hne
    · exact absurd h hnr

theorem onChain_sound (files : List FileDoc) (hA : Acyclic files) (fid t : String)
    (h : onChainB files fid (cycleFuel files) (some t) = true) :
    fid = t ∨ Reaches files t fid := by
  rcases onChain_true_cases files fid (cycleFuel files) (some t) h with ⟨n, hn⟩ | hne
  · cases n with
    | zero =>
      left
      simpa [iter] using hn.symm
    | succ m => right; exact (reaches_iff_iter files t fid).mpr ⟨m, hn⟩
  · exact absurd (acyclic_iter_none files hA t) hne

theorem isSkipped_iff (files : List FileDoc) (hA : Acyclic files) (tgt : Option String)
    (fid : String) : isSkipped files tgt fid = true ↔ SkippedSem files tgt fid := by
  cases tgt with
  | none =>
    constructor
    · intro h
      simp [isSkipped, onChainB] at h
    · rintro (h | ⟨t, ht, _⟩)
      · exact absurd h (by simp)
      · exact absurd ht (by simp)
  | some t =>
    constructor
    · intro h
      have h' : fid = t ∨ onChainB files fid (cycleFuel files) (some t) = true := by
        simpa [isSkipped] using h
      rcases h' with h1 | h2
      · left
        rw [h1]
      · rcases onChain_sound files hA fid t h2 with h3 | h3
        · left; rw [h3]
        · right; exact ⟨t, rfl, h3⟩
    · intro h
      have hsem : fid = t ∨ Reaches files t fid := by
        rcases h with h | ⟨t', ht', hr⟩
        · left
          have : t = fid := by simpa using h
          rw [this]
        · right
          have : t' = t := by simpa using ht'.symm
          rw [← this]; exact hr
      simp only [isSkipped, Bool.or_eq_true]
      right
      exact onChain_complete files fid t (cycleFuel files) hsem

theorem lookup_map (τ : FileDoc → FileDoc) (hτ : ∀ f, (τ f).id = f.id)
    (files : List FileDoc) (x : String) :
    lookup (files.map τ) x = (lookup files x).map τ := by
  induction files with
  | nil => rfl
  | cons f fs ih =>
    simp only [lookup, List.map_cons, List.find?]
    rw [hτ f]
    cases h : f.id == x with
    | true => rfl
    | false => simpa [lookup] using ih

theorem moveTransform_id (moves : List String) (tgt : Option String) (f : FileDoc) :
    (moveTransform moves tgt f).id = f.id := by
  unfold moveTransform
  by_cases h : moves.contains f.id = true
  · rw [if_pos h]
  · rw [if_neg h]
    cases tgt with
    | none => rfl
    | some t =>
      dsimp only
      by_cases h1 : (t == "") = true
      · rw [if_pos h1]
      · rw [if_neg h1]
        by_cases h2 : (f.id == t) = true
        · rw [if_pos h2]
        · rw [if_neg h2]

theorem parentRef_moveTransform_mem (moves : List String) (tgt : Option String) (f : FileDoc)
    (h : moves.contains f.id = true) :
    parentRef (moveTransform moves tgt f) = tgtRef tgt := by
  unfold moveTransform
  rw [if_pos h]
  cases tgt with
  | none => rfl
  | some t => rfl

theorem parentRef_moveTransform_not_mem (moves : List String) (tgt : Option String)
    (f : FileDoc) (h : ¬ moves.contains f.id = true) :
    parentRef (moveTransform moves tgt f) = parentRef f := by
  unfold moveTransform
  rw [if_neg h]
  cases tgt with
  | none => rfl
  | some t =>
    dsimp only
    by_cases h1 : (t == "") = true
    · rw [if_pos h1]
    · rw [if_neg h1]
      by_cases h2 : (f.id == t) = true
      · rw [if_pos h2]; rfl
      · rw [if_neg h2]

theorem pstep_map (τ : FileDoc → FileDoc) (hτ : ∀ f, (τ f).id = f.id)
    (files : List FileDoc) (x : String) :
    pstep (files.map τ) x =
      match lookup files x with
      | none => none
      | some f => parentRef (τ f) := by
  unfold pstep
  rw [lookup_map τ hτ]
  cases lookup files x <;> rfl

theorem handleMoveFile_empty (files : List FileDoc) (fileIds : List String)
    (tgt : Option String) (h : (movesToProcess files fileIds tgt).isEmpty = true) :
    handleMoveFile files fileIds tgt = files := by
  unfold handleMoveFile
  rw [if_pos h]

theorem handleMoveFile_nonempty (files : List FileDoc) (fileIds : List String)
    (tgt : Option String) (h : (movesToProcess files fileIds tgt).isEmpty = false) :
    handleMoveFile files fileIds tgt =
      files.map (moveTransform (movesToProcess files fileIds tgt) tgt) := by
  unfold handleMoveFile
  rw [if_neg (by rw [h]; exact Bool.false_ne_true)]

theorem pstep_move_not_moved (files : List FileDoc) (fileIds : List String)
    (tgt : Option String) (h : (movesToProcess files fileIds tgt).isEmpty = false)
    (c : String) (hc : ¬ (movesToProcess files fileIds tgt).contains c = true) :
    pstep (handleMoveFile files fileIds tgt) c = pstep files c := by
  rw [handleMoveFile_nonempty files fileIds tgt h]
  rw [pstep_map _ (moveTransform_id _ _) files c]
  unfold pstep
  cases hl : lookup files c with
  | none => rfl
  | some f =>
    dsimp only
    have hfid : f.id = c := by
      have := List.find?_some hl
      simpa using this
    rw [parentRef_moveTransform_not_mem _ _ _ (by rw [hfid]; exact hc)]

theorem pstep_move_no_doc (files : List FileDoc) (fileIds : List String)
    (tgt : Option String) (h : (movesToProcess files fileIds tgt).isEmpty = false)
    (c : String) (hl : lookup files c = none) :
    pstep (handleMoveFile files fileIds tgt) c = none := by
  rw [handleMoveFile_nonempty files fileIds tgt h]
  rw [pstep_map _ (moveTransform_id _ _) files c]
  rw [hl]

theorem pstep_move_moved (files : List FileDoc) (fileIds : List String)
    (tgt : Option String) (h : (movesToProcess files fileIds tgt).isEmpty = false)
    (c : String) (hc : (movesToProcess files fileIds tgt).contains c = true)
    (f : FileDoc) (hl : lookup files c = some f) :
    pstep (handleMoveFile files fileIds tgt) c = tgtRef tgt := by
  rw [handleMoveFile_nonempty files fileIds tgt h]
  rw [pstep_map _ (moveTransform_id _ _) files c]
  rw [hl]
  have hfid : f.id = c := by
    have := List.find?_some hl
    simpa using this
  exact parentRef_moveTransform_mem _ tgt f (by rw [hfid]; exact hc)

theorem acyclic_of_all_terminating (files' : List FileDoc)
    (h : ∀ a, ∃ n, iter files' n (some a) = none) : Acyclic files' := by
  intro a hr
  obtain ⟨d, hd⟩ := (reaches_iff_iter files' a a).mp hr
  obtain ⟨n, hn⟩ := h a
  have hcyc : ∀ k, iter files' (k * (d + 1)) (some a) = some a := by
    intro k
    induction k with
    | zero => simp [iter]
    | succ k ih =>
      have he : (k + 1) * (d + 1) = k * (d + 1) + (d + 1) := by ring
      rw [he, iter_add, ih, hd]
  have hle : n ≤ n * (d + 1) := by
    calc n = n * 1 := (Nat.mul_one n).symm
    _ ≤ n * (d + 1) := Nat.mul_le_mul_left n (by omega)
  have hnone := iter_none_mono files' hn hle
  rw [hcyc n] at hnone
  exact absurd hnone (by simp)

theorem move_chain_transfer (files : List FileDoc) (fileIds : List String)
    (tgt : Option String) (h : (movesToProcess files fileIds tgt).isEmpty = false) :
    ∀ N a, iter files N (some a) = none →
      (∃ n, iter (handleMoveFile files fileIds tgt) n (some a) = none) ∨
      (∃ m n, (movesToProcess files fileIds tgt).contains m = true ∧
        lookup files m ≠ none ∧
        iter (handleMoveFile files fileIds tgt) n (some a) = some m) := by
  intro N
  induction N with
  | zero =>
    intro a ha
    exact absurd ha (by simp [iter])
  | succ N ih =>
    intro a ha
    by_cases hmv : (movesToProcess files fileIds tgt).contains a = true
    · cases hl : lookup files a with
      | none =>
        left
        refine ⟨1, ?_⟩
        rw [show (1 : Nat) = 0 + 1 by rfl, iter_succ_some]
        rw [pstep_move_no_doc files fileIds tgt h a hl, iter_none]
      | some f =>
        right
        exact ⟨a, 0, hmv, by rw [hl]; simp, by simp [iter]⟩
    · have hps : pstep (handleMoveFile files fileIds tgt) a = pstep files a :=
        pstep_move_not_moved files fileIds tgt h a hmv
      cases hp : pstep files a with
      | none =>
        left
        refine ⟨1, ?_⟩
        rw [show (1 : Nat) = 0 + 1 by rfl, iter_succ_some, hps, hp, iter_none]
      | some b =>
        have hb : iter files N (some b) = none := by
          rw [iter_succ_some, hp] at ha
          exact ha
        rcases ih b hb with ⟨n, hn⟩ | ⟨m, n, hm1, hm2, hm3⟩
        · left
          refine ⟨n + 1, ?_⟩
          rw [iter_succ_some, hps, hp]
          exact hn
        · right
          refine ⟨m, n + 1, hm1, hm2, ?_⟩
          rw [iter_succ_some, hps, hp]
          exact hm3

theorem iter_one (files : List FileDoc) (a : String) :
    iter files 1 (some a) = pstep files a := rfl

theorem tgtRef_some (tgt : Option String) (t : String) (h : tgtRef tgt = some t) :
    tgt = some t := by
  cases tgt with
  | none => exact absurd h (by simp [tgtRef])
  | some t' =>
    unfold tgtRef at h
    dsimp only at h
    by_cases h1 : (t' == "") = true
    · rw [if_pos h1] at h
      exact absurd h (by simp)
    · rw [if_neg h1] at h
      exact congrArg some (by simpa using h)

theorem moves_contains_facts (files : List FileDoc) (fileIds : List String)
    (tgt : Option String) (m : String)
    (hm : (movesToProcess files fileIds tgt).contains m = true) :
    m ∈ fileIds ∧ isSkipped files tgt m = false := by
  have hmem : m ∈ movesToProcess files fileIds tgt := by simpa using hm
  unfold movesToProcess at hmem
  have h2 := List.mem_filter.mp hmem
  exact ⟨h2.1, by simpa using h2.2⟩

theorem mem_moves_of_not_skipped (files : List FileDoc) (fileIds : List String)
    (tgt : Option String) (m : String) (hmem : m ∈ fileIds)
    (hns : isSkipped files tgt m = false) :
    (movesToProcess files fileIds tgt).contains m = true := by
  have : m ∈ movesToProcess files fileIds tgt := by
    unfold movesToProcess
    exact List.mem_filter.mpr ⟨hmem, by simpa using hns⟩
  simpa using this

theorem move_chain_eq_target (files : List FileDoc) (fileIds : List String)
    (tgt : Option String) (t : String)
    (h : (movesToProcess files fileIds tgt).isEmpty = false)
    (htr : tgtRef tgt = some t) :
    ∀ n, iter (handleMoveFile files fileIds tgt) n (some t) = iter files n (some t) := by
  have htgt : tgt = some t := tgtRef_some tgt t htr
  have hOnChain : ∀ m, (movesToProcess files fileIds tgt).contains m = true →
      onChainB files m (cycleFuel files) (some t) = false := by
    intro m hm
    have hsk := (moves_contains_facts files fileIds tgt m hm).2
    unfold isSkipped at hsk
    rw [htgt] at hsk
    exact (Bool.or_eq_false_iff.mp hsk).2
  intro n
  induction n with
  | zero => rfl
  | succ n ih =>
    rw [iter_add (handleMoveFile files fileIds tgt) n 1, iter_add files n 1, ih]
    cases hc : iter files n (some t) with
    | none => rw [iter_none, iter_none]
    | some c =>
      have hnm : ¬ (movesToProcess files fileIds tgt).contains c = true := by
        intro hcm
        exact onChain_false_iterates files c (cycleFuel files) (some t) (hOnChain c hcm) n c hc
          rfl
      rw [iter_one, iter_one]
      exact pstep_move_not_moved files fileIds tgt h c hnm

theorem move_terminates (files : List FileDoc) (fileIds : List String)
    (tgt : Option String) (hA : Acyclic files) :
    ∀ a, ∃ n, iter (handleMoveFile files fileIds tgt) n (some a) = none := by
  intro a
  by_cases hemp : (movesToProcess files fileIds tgt).isEmpty = true
  · rw [handleMoveFile_empty files fileIds tgt hemp]
    exact ⟨cycleFuel files, acyclic_iter_none files hA a⟩
  · have h : (movesToProcess files fileIds tgt).isEmpty = false :=
      Bool.eq_false_iff.mpr hemp
    rcases move_chain_transfer files fileIds tgt h (cycleFuel files) a
        (acyclic_iter_none files hA a) with ⟨n, hn⟩ | ⟨m, n, hm, hlk, hit⟩
    · exact ⟨n, hn⟩
    · obtain ⟨f, hf⟩ : ∃ f, lookup files m = some f := by
        cases hl : lookup files m with
        | none => exact absurd hl hlk
        | some f => exact ⟨f, rfl⟩
      have hps := pstep_move_moved files fileIds tgt h m hm f hf
      cases htr : tgtRef tgt with
      | none =>
        refine ⟨n + 1, ?_⟩
        rw [iter_add (handleMoveFile files fileIds tgt) n 1, hit, iter_one, hps, htr]
      | some t =>
        refine ⟨n + 1 + cycleFuel files, ?_⟩
        rw [iter_add (handleMoveFile files fileIds tgt) (n + 1) (cycleFuel files),
          iter_add (handleMoveFile files fileIds tgt) n 1, hit, iter_one, hps, htr,
          move_chain_eq_target files fileIds tgt t h htr (cycleFuel files)]
        exact acyclic_iter_none files hA t

theorem move_acyclic (files : List FileDoc) (fileIds : List String) (tgt : Option String)
    (hA : Acyclic files) : Acyclic (handleMoveFile files fileIds tgt) :=
  acyclic_of_all_terminating _ (move_terminates files fileIds tgt hA)

theorem moveTransform_eq_of_mem (moves : List String) (tgt : Option String) (f : FileDoc)
    (h : moves.contains f.id = true) :
    moveTransform moves tgt f = { f with parentId := tgt } := by
  unfold moveTransform
  rw [if_pos h]

theorem moveTransform_parentId_not_mem (moves : List String) (tgt : Option String)
    (f : FileDoc) (h : ¬ moves.contains f.id = true) :
    (moveTransform moves tgt f).parentId = f.parentId := by
  unfold moveTransform
  rw [if_neg h]
  cases tgt with
  | none => rfl
  | some t =>
    dsimp only
    by_cases h1 : (t == "") = true
    · rw [if_pos h1]
    · rw [if_neg h1]
      by_cases h2 : (f.id == t) = true
      · rw [if_pos h2]
      · rw [if_neg h2]

theorem lookup_self (files : List FileDoc) (hN : (files.map FileDoc.id).Nodup)
    (f : FileDoc) (hf : f ∈ files) : lookup files f.id = some f := by
  induction files with
  | nil => exact absurd hf (List.not_mem_nil f)
  | cons g gs ih =>
    rw [List.map_cons] at hN
    have hN2 := List.nodup_cons.mp hN
    rcases List.mem_cons.mp hf with rfl | hf2
    · unfold lookup
      exact List.find?_cons_of_pos _ (by simp)
    · have hgne : ¬ (g.id == f.id) = true := by
        intro hbe
        have hmem : f.id ∈ gs.map FileDoc.id := List.mem_map.mpr ⟨f, hf2, rfl⟩
        rw [← (by simpa using hbe : g.id = f.id)] at hmem
        exact hN2.1 hmem
      have hgne' : ¬ ((fun f1 : FileDoc => f1.id == f.id) g = true) := by simpa using hgne
      unfold lookup
      rw [show List.find? (fun f1 : FileDoc => f1.id == f.id) (g :: gs) =
            List.find? (fun f1 : FileDoc => f1.id == f.id) gs from
          List.find?_cons_of_neg gs hgne']
      exact ih hN2.2 hf2

/-- C1: On a tree whose parent graph is acyclic (and whose ids are
unique), handleMoveFile keeps the parent graph acyclic: following parent
links from any document never revisits that document.  Every id of the
moved set whose reparenting would create a cycle (the id occurs on the
ancestor chain of the target) or whose target equals the id itself is
skipped with its parent unchanged, and every other id of the set ends
with its parent set to the target. -/
theorem move_preserves_acyclicity (files : List FileDoc) (fileIds : List String)
    (tgt : Option String) (hA : Acyclic files) (hN : (files.map FileDoc.id).Nodup) :
    Acyclic (handleMoveFile files fileIds tgt) ∧
    (∀ f ∈ files, f.id ∈ fileIds →
      (SkippedSem files tgt f.id →
        (lookup (handleMoveFile files fileIds tgt) f.id).map FileDoc.parentId =
          some f.parentId) ∧
      (¬ SkippedSem files tgt f.id →
        lookup (handleMoveFile files fileIds tgt) f.id = some { f with parentId := tgt })) := by
  constructor
  · exact move_acyclic files fileIds tgt hA
  · intro f hf hfid
    constructor
    · intro hsk
      have hskB : isSkipped files tgt f.id = true := (isSkipped_iff files hA tgt f.id).mpr hsk
      have hnc : ¬ (movesToProcess files fileIds tgt).contains f.id = true := by
        intro hc
        have hfacts := (moves_contains_facts files fileIds tgt f.id hc).2
        rw [hskB] at hfacts
        exact absurd hfacts (by simp)
      by_cases hemp : (movesToProcess files fileIds tgt).isEmpty = true
      · rw [handleMoveFile_empty files fileIds tgt hemp, lookup_self files hN f hf]
        rfl
      · have hne := Bool.eq_false_iff.mpr hemp
        rw [handleMoveFile_nonempty files fileIds tgt hne,
          lookup_map _ (moveTransform_id _ _) files f.id, lookup_self files hN f hf]
        exact congrArg some (moveTransform_parentId_not_mem _ tgt f hnc)
    · intro hns
      have hskB : isSkipped files tgt f.id = false := by
        cases hb : isSkipped files tgt f.id with
        | true => exact absurd ((isSkipped_iff files hA tgt f.id).mp hb) hns
        | false => rfl
      have hc := mem_moves_of_not_skipped files fileIds tgt f.id hfid hskB
      have hnotemp : (movesToProcess files fileIds tgt).isEmpty = false := by
        cases hmv : movesToProcess files fileIds tgt with
        | nil => rw [hmv] at hc; simp at hc
        | cons x xs => rfl
      rw [handleMoveFile_nonempty files fileIds tgt hnotemp,
        lookup_map _ (moveTransform_id _ _) files f.id, lookup_self files hN f hf]
      exact congrArg some (moveTransform_eq_of_mem _ tgt f hc)

theorem move_preserves_acyclicity_witness :
    Acyclic (handleMoveFile exFiles ["b"] (some "a")) ∧
    (∀ f ∈ exFiles, f.id ∈ ["b"] →
      (SkippedSem exFiles (some "a") f.id →
        (lookup (handleMoveFile exFiles ["b"] (some "a")) f.id).map FileDoc.parentId =
          some f.parentId) ∧
      (¬ SkippedSem exFiles (some "a") f.id →
        lookup (handleMoveFile exFiles ["b"] (some "a")) f.id =
          some { f with parentId := some "a" })) :=
  move_preserves_acyclicity exFiles ["b"] (some "a")
    (acyclic_of_check exFiles (by decide)) (by decide)

theorem movesNil_iff (files : List FileDoc) (fileIds : List String) (tgt : Option String)
    (hA : Acyclic files) :
    movesToProcess files fileIds tgt = [] ↔ (∀ fid ∈ fileIds, SkippedSem files tgt fid) := by
  unfold movesToProcess
  rw [List.filter_eq_nil_iff]
  constructor
  · intro h fid hfid
    have := h fid hfid
    exact (isSkipped_iff files hA tgt fid).mp (by simpa using this)
  · intro h fid hfid
    have := (isSkipped_iff files hA tgt fid).mpr (h fid hfid)
    simp [this]

theorem moves_exists_not_skipped (files : List FileDoc) (fileIds : List String)
    (tgt : Option String) (hA : Acyclic files)
    (h : (movesToProcess files fileIds tgt).isEmpty = false) :
    ∃ fid ∈ fileIds, ¬ SkippedSem files tgt fid := by
  cases hmv : movesToProcess files fileIds tgt with
  | nil => rw [hmv] at h; exact absurd h (by simp)
  | cons m ms =>
    have hmem : m ∈ movesToProcess files fileIds tgt := by rw [hmv]; exact List.mem_cons_self m ms
    unfold movesToProcess at hmem
    have h2 := List.mem_filter.mp hmem
    refine ⟨m, h2.1, ?_⟩
    intro hsem
    have := (isSkipped_iff files hA tgt m).mpr hsem
    rw [this] at h2
    exact absurd h2.2 (by simp)

/-- C10: under an acyclic tree, a move in which every id is skipped
leaves the whole tree untouched (the target is not expanded); a move with
at least one surviving id changes only the parentId of the moved
documents and the isExpanded flag of the target document, and leaves
every other document and every other field unchanged. -/
theorem move_frame (files : List FileDoc) (fileIds : List String) (tgt : Option String)
    (hA : Acyclic files) :
    ((∀ fid ∈ fileIds, SkippedSem files tgt fid) → handleMoveFile files fileIds tgt = files) ∧
    (handleMoveFile files fileIds tgt).length = files.length ∧
    (∀ (i : Nat) (h : i < files.length) (h2 : i < (handleMoveFile files fileIds tgt).length),
      ((files[i].id ∈ fileIds ∧ ¬ SkippedSem files tgt files[i].id) →
        (handleMoveFile files fileIds tgt)[i] = { files[i] with parentId := tgt }) ∧
      (¬ (files[i].id ∈ fileIds ∧ ¬ SkippedSem files tgt files[i].id) →
        (((∃ fid ∈ fileIds, ¬ SkippedSem files tgt fid) ∧ tgt = some files[i].id ∧
            files[i].id ≠ "") →
          (handleMoveFile files fileIds tgt)[i] = { files[i] with isExpanded := true }) ∧
        (¬ ((∃ fid ∈ fileIds, ¬ SkippedSem files tgt fid) ∧ tgt = some files[i].id ∧
            files[i].id ≠ "") →
          (handleMoveFile files fileIds tgt)[i] = files[i]))) := by
  refine ⟨?_, ?_, ?_⟩
  · intro hall
    apply handleMoveFile_empty
    rw [(movesNil_iff files fileIds tgt hA).mpr hall]
    rfl
  · by_cases hemp : (movesToProcess files fileIds tgt).isEmpty = true
    · rw [handleMoveFile_empty files fileIds tgt hemp]
    · rw [handleMoveFile_nonempty files fileIds tgt (Bool.eq_false_iff.mpr hemp)]
      exact List.length_map files _
  · intro i h h2
    by_cases hemp : (movesToProcess files fileIds tgt).isEmpty = true
    · have hnil : movesToProcess files fileIds tgt = [] := by
        cases hmv : movesToProcess files fileIds tgt with
        | nil => rfl
        | cons x xs => rw [hmv] at hemp; exact absurd hemp (by simp)
      have hall := (movesNil_iff files fileIds tgt hA).mp hnil
      constructor
      · intro ⟨hmem, hns⟩
        exact absurd (hall _ hmem) hns
      · intro _
        constructor
        · intro ⟨⟨fid, hfid, hns⟩, _, _⟩
          exact absurd (hall fid hfid) hns
        · intro _
          exact List.getElem_of_eq (handleMoveFile_empty files fileIds tgt hemp) h2
    · have hne := Bool.eq_false_iff.mpr hemp
      have hmap : (handleMoveFile files fileIds tgt)[i] =
          moveTransform (movesToProcess files fileIds tgt) tgt files[i] := by
        have := handleMoveFile_nonempty files fileIds tgt hne
        rw [List.getElem_of_eq this h2, List.getElem_map]
      constructor
      · intro ⟨hmem, hns⟩
        have hskB : isSkipped files tgt files[i].id = false := by
          cases hb : isSkipped files tgt files[i].id with
          | true => exact absurd ((isSkipped_iff files hA tgt files[i].id).mp hb) hns
          | false => rfl
        have hc := mem_moves_of_not_skipped files fileIds tgt files[i].id hmem hskB
        rw [hmap]
        exact moveTransform_eq_of_mem _ tgt files[i] hc
      · intro hnm
        have hnc : ¬ (movesToProcess files fileIds tgt).contains files[i].id = true := by
          intro hc
          have hfacts := moves_contains_facts files fileIds tgt files[i].id hc
          refine hnm ⟨hfacts.1, ?_⟩
          intro hsem
          have := (isSkipped_iff files hA tgt files[i].id).mpr hsem
          rw [this] at hfacts
          exact absurd hfacts.2 (by simp)
        constructor
        · intro ⟨_, htgt, hid⟩
          rw [hmap]
          unfold moveTransform
          rw [if_neg hnc, htgt]
          dsimp only
          rw [if_neg (by simpa using hid), if_pos (by simp)]
        · intro hncond
          rw [hmap]
          unfold moveTransform
          rw [if_neg hnc]
          cases htgt : tgt with
          | none => rfl
          | some t =>
            dsimp only
            by_cases ht0 : (t == "") = true
            · rw [if_pos ht0]
            · rw [if_neg ht0]
              by_cases hid : (files[i].id == t) = true
              · exfalso
                apply hncond
                refine ⟨moves_exists_not_skipped files fileIds tgt hA hne, ?_, ?_⟩
                · rw [htgt]
                  have hidEq : files[i].id = t := by simpa using hid
                  rw [hidEq]
                · have : files[i].id = t := by simpa using hid
                  rw [this]
                  simpa using ht0
              · rw [if_neg hid]

theorem move_frame_witness :
    ((∀ fid ∈ ["b"], SkippedSem exFiles (some "a") fid) →
      handleMoveFile exFiles ["b"] (some "a") = exFiles) ∧
    (handleMoveFile exFiles ["b"] (some "a")).length = exFiles.length ∧
    (∀ (i : Nat) (h : i < exFiles.length)
        (h2 : i < (handleMoveFile exFiles ["b"] (some "a")).length),
      ((exFiles[i].id ∈ ["b"] ∧ ¬ SkippedSem exFiles (some "a") exFiles[i].id) →
        (handleMoveFile exFiles ["b"] (some "a"))[i] =
          { exFiles[i] with parentId := some "a" }) ∧
      (¬ (exFiles[i].id ∈ ["b"] ∧ ¬ SkippedSem exFiles (some "a") exFiles[i].id) →
        (((∃ fid ∈ ["b"], ¬ SkippedSem exFiles (some "a") fid) ∧
            some "a" = some exFiles[i].id ∧ exFiles[i].id ≠ "") →
          (handleMoveFile exFiles ["b"] (some "a"))[i] =
            { exFiles[i] with isExpanded := true }) ∧
        (¬ ((∃ fid ∈ ["b"], ¬ SkippedSem exFiles (some "a") fid) ∧
            some "a" = some exFiles[i].id ∧ exFiles[i].id ≠ "") →
          (handleMoveFile exFiles ["b"] (some "a"))[i] = exFiles[i]))) :=
  move_frame exFiles ["b"] (some "a") (acyclic_of_check exFiles (by decide))

/-- C8 counterexample: handleToggleFolder is not a no-op on a document of
kind file; toggling a collapsed file flips its expansion flag. -/
theorem toggle_not_noop_on_file :
    exRootFile.type = "file" ∧ exRootFile.isExpanded = false ∧
    handleToggleFolder exSingle "b" ≠ exSingle := by
  refine ⟨rfl, rfl, ?_⟩
  decide

/-- C8 amended: handleToggleFolder flips the expansion flag of the
document with the given id regardless of its kind (files included),
leaves every other document and field unchanged, and toggling twice
restores the original tree. -/
theorem toggle_flips_any_kind (files : List FileDoc) (id : String) :
    (handleToggleFolder files id).length = files.length ∧
    (∀ (i : Nat) (h : i < files.length) (h2 : i < (handleToggleFolder files id).length),
      (files[i].id = id →
        (handleToggleFolder files id)[i] =
          { files[i] with isExpanded := !(files[i].isExpanded) }) ∧
      (files[i].id ≠ id → (handleToggleFolder files id)[i] = files[i])) ∧
    handleToggleFolder (handleToggleFolder files id) id = files := by
  refine ⟨List.length_map files _, ?_, ?_⟩
  · intro i h h2
    have hmap : (handleToggleFolder files id)[i] =
        (fun f => if f.id == id then { f with isExpanded := !f.isExpanded } else f) files[i] := by
      rw [List.getElem_of_eq (show handleToggleFolder files id =
        files.map (fun f => if f.id == id then { f with isExpanded := !f.isExpanded } else f)
        from rfl) h2, List.getElem_map]
    constructor
    · intro hid
      rw [hmap]
      dsimp only
      rw [if_pos (by simpa using hid)]
    · intro hid
      rw [hmap]
      dsimp only
      rw [if_neg (by simpa using hid)]
  · unfold handleToggleFolder
    rw [List.map_map]
    have hfun : ∀ f ∈ files,
        ((fun f => if f.id == id then { f with isExpanded := !f.isExpanded } else f) ∘
          (fun f => if f.id == id then { f with isExpanded := !f.isExpanded } else f)) f = f := by
      intro f _
      dsimp only [Function.comp]
      by_cases hid : (f.id == id) = true
      · rw [if_pos hid, if_pos (by simpa using hid)]
        simp [Bool.not_not]
      · rw [if_neg hid, if_neg hid]
    rw [List.map_congr_left hfun]
    simp

theorem toggle_flips_any_kind_witness :
    (handleToggleFolder exSingle "b").length = exSingle.length ∧
    (∀ (i : Nat) (h : i < exSingle.length) (h2 : i < (handleToggleFolder exSingle "b").length),
      (exSingle[i].id = "b" →
        (handleToggleFolder exSingle "b")[i] =
          { exSingle[i] with isExpanded := !(exSingle[i].isExpanded) }) ∧
      (exSingle[i].id ≠ "b" → (handleToggleFolder exSingle "b")[i] = exSingle[i])) ∧
    handleToggleFolder (handleToggleFolder exSingle "b") "b" = exSingle :=
  toggle_flips_any_kind exSingle "b"

theorem expand_idem (f : FileDoc) :
    ({ ({ f with isExpanded := true } : FileDoc) with isExpanded := true } : FileDoc) =
      { f with isExpanded := true } := rfl

theorem expand_of_true (f : FileDoc) (h : f.isExpanded = true) :
    ({ f with isExpanded := true } : FileDoc) = f := by
  have h1 : ({ f with isExpanded := true } : FileDoc) =
      { f with isExpanded := f.isExpanded } := by rw [h]
  rw [h1]

theorem lookup_setExpandedFirst_self (acc : List FileDoc) (pid : String) :
    lookup (setExpandedFirst acc pid) pid =
      (lookup acc pid).map (fun f => { f with isExpanded := true }) := by
  induction acc with
  | nil => rfl
  | cons f rest ih =>
    unfold setExpandedFirst
    by_cases hid : (f.id == pid) = true
    · rw [if_pos hid]
      simp only [lookup, List.find?]
      rw [show (({ f with isExpanded := true } : FileDoc).id == pid) = true from
        by simpa using hid]
      rfl
    · rw [if_neg hid]
      simp only [lookup, List.find?]
      rw [show (f.id == pid) = false from by simpa using hid]
      exact ih

theorem lookup_setExpandedFirst_other (acc : List FileDoc) (pid x : String) (hx : x ≠ pid) :
    lookup (setExpandedFirst acc pid) x = lookup acc x := by
  induction acc with
  | nil => rfl
  | cons f rest ih =>
    unfold setExpandedFirst
    by_cases hid : (f.id == pid) = true
    · rw [if_pos hid]
      have hfx : (f.id == x) = false := by
        have hfp : f.id = pid := by simpa using hid
        simp [hfp]
        intro hpx
        exact hx hpx.symm
      simp only [lookup, List.find?]
      rw [show (({ f with isExpanded := true } : FileDoc).id == x) = false from
        by simpa using hfx]
    · rw [if_neg hid]
      by_cases hfx : (f.id == x) = true
      · simp only [lookup, List.find?]
        rw [hfx]
      · simp only [lookup, List.find?]
        rw [show (f.id == x) = false from by simpa using hfx]
        exact ih

theorem not_reaches_of_pstep_none (files : List FileDoc) (a x : String)
    (h : pstep files a = none) : ¬ Reaches files a x := by
  intro hr
  obtain ⟨b, hab, _⟩ := Relation.TransGen.head'_iff.mp hr
  rw [stepR, h] at hab
  exact absurd hab (by simp)

theorem reaches_step_iff (files : List FileDoc) (a b x : String)
    (h : pstep files a = some b) :
    Reaches files a x ↔ x = b ∨ Reaches files b x := by
  constructor
  · intro hr
    obtain ⟨c, hac, hcx⟩ := Relation.TransGen.head'_iff.mp hr
    rw [stepR, h] at hac
    have hcb : b = c := by simpa using hac
    subst hcb
    rcases Relation.reflTransGen_iff_eq_or_transGen.mp hcx with hxe | htg
    · left; exact hxe
    · right; exact htg
  · rintro (rfl | hr)
    · exact Relation.TransGen.single h
    · exact Relation.TransGen.head h hr

theorem ensureVisibleGo_succ (orig : List FileDoc) (fuel : Nat) (acc : List FileDoc)
    (cur : FileDoc) :
    ensureVisibleGo orig (fuel + 1) acc cur =
      match parentRef cur with
      | none => acc
      | some pid =>
        match lookup orig pid with
        | none => acc
        | some parent =>
          ensureVisibleGo orig fuel
            (if parent.isExpanded then acc else setExpandedFirst acc pid) parent := rfl

theorem ensureVisibleGo_spec (orig : List FileDoc) (hA : Acyclic orig)
    (hN : (orig.map FileDoc.id).Nodup) :
    ∀ (fuel N : Nat) (cur : FileDoc) (acc : List FileDoc),
      cur ∈ orig →
      iter orig N (some cur.id) = none →
      N ≤ fuel →
      (∀ y d, lookup orig y = some d →
        lookup acc y = some d ∨ lookup acc y = some { d with isExpanded := true }) →
      ∀ x doc, lookup orig x = some doc →
        (Reaches orig cur.id x →
          lookup (ensureVisibleGo orig fuel acc cur) x = some { doc with isExpanded := true }) ∧
        (¬ Reaches orig cur.id x →
          lookup (ensureVisibleGo orig fuel acc cur) x = lookup acc x) := by
  intro fuel
  induction fuel with
  | zero =>
    intro N cur acc hcur hiter hle hinv x doc hx
    have hN0 : N = 0 := Nat.le_zero.mp hle
    subst hN0
    simp [iter] at hiter
  | succ fuel ih =>
    intro N cur acc hcur hiter hle hinv x doc hx
    have hlcur : lookup orig cur.id = some cur := lookup_self orig hN cur hcur
    cases hpr : parentRef cur with
    | none =>
      have hps : pstep orig cur.id = none := by unfold pstep; rw [hlcur]; exact hpr
      have hnr : ¬ Reaches orig cur.id x := not_reaches_of_pstep_none orig cur.id x hps
      constructor
      · intro hr; exact absurd hr hnr
      · intro _
        rw [ensureVisibleGo_succ, hpr]
    | some pid =>
      have hps : pstep orig cur.id = some pid := by unfold pstep; rw [hlcur]; exact hpr
      cases hlp : lookup orig pid with
      | none =>
        have hnr : ¬ Reaches orig cur.id x := by
          intro hr
          rcases (reaches_step_iff orig cur.id pid x hps).mp hr with rfl | hr2
          · rw [hlp] at hx; exact absurd hx (by simp)
          · exact not_reaches_of_pstep_none orig pid x (by unfold pstep; rw [hlp]) hr2
        constructor
        · intro hr; exact absurd hr hnr
        · intro _
          rw [ensureVisibleGo_succ, hpr]
          dsimp only
          rw [hlp]
      | some parent =>
        have hparent_mem : parent ∈ orig := List.mem_of_find?_eq_some hlp
        have hparent_id : parent.id = pid := by
          have := List.find?_some hlp
          simpa using this
        cases N with
        | zero => simp [iter] at hiter
        | succ N' =>
          have hiter' : iter orig N' (some parent.id) = none := by
            rw [iter_succ_some, hps] at hiter
            rw [hparent_id]
            exact hiter
          have hle' : N' ≤ fuel := Nat.succ_le_succ_iff.mp hle
          have hinv' : ∀ y d, lookup orig y = some d →
              lookup (if parent.isExpanded then acc else setExpandedFirst acc pid) y = some d ∨
              lookup (if parent.isExpanded then acc else setExpandedFirst acc pid) y =
                some { d with isExpanded := true } := by
            intro y d hy
            by_cases hexp : parent.isExpanded = true
            · rw [if_pos hexp]; exact hinv y d hy
            · rw [if_neg hexp]
              by_cases hyp : y = pid
              · subst hyp
                right
                rw [lookup_setExpandedFirst_self acc y]
                rcases hinv y d hy with h1 | h1
                · rw [h1]; rfl
                · rw [h1]; exact congrArg some (expand_idem d)
              · rw [lookup_setExpandedFirst_other acc pid y hyp]
                exact hinv y d hy
          have spec' := ih N' parent (if parent.isExpanded then acc else setExpandedFirst acc pid)
            hparent_mem hiter' hle' hinv' x doc hx
          have hred : ensureVisibleGo orig (fuel + 1) acc cur =
              ensureVisibleGo orig fuel
                (if parent.isExpanded then acc else setExpandedFirst acc pid) parent := by
            rw [ensureVisibleGo_succ, hpr]
            dsimp only
            rw [hlp]
          constructor
          · intro hr
            rcases (reaches_step_iff orig cur.id pid x hps).mp hr with rfl | hr2
            · have hdoc : doc = parent := Option.some.inj (hx.symm.trans hlp)
              have hnrp : ¬ Reaches orig parent.id x := by
                rw [hparent_id]
                exact hA x
              rw [hred, spec'.2 hnrp]
              by_cases hexp : parent.isExpanded = true
              · rw [if_pos hexp]
                rcases hinv x doc hx with h1 | h1
                · rw [h1]
                  exact congrArg some (expand_of_true doc (by rw [hdoc]; exact hexp)).symm
                · rw [h1]
              · rw [if_neg hexp, lookup_setExpandedFirst_self acc x]
                rcases hinv x doc hx with h1 | h1
                · rw [h1]; rfl
                · rw [h1]; exact congrArg some (expand_idem doc)
            · rw [hred]
              exact spec'.1 (by rw [hparent_id]; exact hr2)
          · intro hnr
            have hxp : x ≠ pid := fun he =>
              hnr ((reaches_step_iff orig cur.id pid x hps).mpr (Or.inl he))
            have hnr2 : ¬ Reaches orig parent.id x := fun h2 =>
              hnr ((reaches_step_iff orig cur.id pid x hps).mpr
                (Or.inr (by rw [← hparent_id]; exact h2)))
            rw [hred, spec'.2 hnr2]
            by_cases hexp : parent.isExpanded = true
            · rw [if_pos hexp]
            · rw [if_neg hexp]
              exact lookup_setExpandedFirst_other acc pid x hxp

/-- C6: on an acyclic tree with unique ids, ensureVisible(id) sets the
expansion flag of every document on the ancestor chain of id (every
transitive parent) to true and leaves every document outside that chain
(including id itself) completely unchanged. -/
theorem ensureVisible_expands_ancestors (files : List FileDoc) (id : String)
    (hA : Acyclic files) (hN : (files.map FileDoc.id).Nodup) :
    ∀ f ∈ files,
      (Reaches files id f.id →
        lookup (ensureVisible files id) f.id = some { f with isExpanded := true }) ∧
      (¬ Reaches files id f.id → lookup (ensureVisible files id) f.id = some f) := by
  intro f hf
  unfold ensureVisible
  cases hl : lookup files id with
  | none =>
    have hps : pstep files id = none := by unfold pstep; rw [hl]
    constructor
    · intro hr; exact absurd hr (not_reaches_of_pstep_none files id f.id hps)
    · intro _; exact lookup_self files hN f hf
  | some cur =>
    have hcur_mem : cur ∈ files := List.mem_of_find?_eq_some hl
    have hcur_id : cur.id = id := by
      have := List.find?_some hl
      simpa using this
    have hterm : iter files (cycleFuel files) (some cur.id) = none := by
      rw [hcur_id]; exact acyclic_iter_none files hA id
    have hspec := ensureVisibleGo_spec files hA hN (cycleFuel files) (cycleFuel files) cur files
      hcur_mem hterm (le_refl _) (fun y d hy => Or.inl hy) f.id f (lookup_self files hN f hf)
    rw [hcur_id] at hspec
    constructor
    · intro hr
      exact hspec.1 hr
    · intro hnr
      rw [hspec.2 hnr]
      exact lookup_self files hN f hf

theorem ensureVisible_expands_ancestors_witness :
    lookup (ensureVisible exFiles "c") exFolder.id =
      some { exFolder with isExpanded := true } ∧
    lookup (ensureVisible exFiles "c") exRootFile.id = some exRootFile := by
  have h := ensureVisible_expands_ancestors exFiles "c"
    (acyclic_of_check exFiles (by decide)) (by decide)
  constructor
  · exact (h exFolder (by decide)).1
      (Relation.TransGen.single (show pstep exFiles "c" = some "a" from by decide))
  · exact (h exRootFile (by decide)).2
      ((onChain_false_not_reaches exFiles "b" "c" (cycleFuel exFiles) (by decide)).2)

theorem handleCloseTab_active_some (s : AppState) (id nextId : String)
    (hact : s.activeFileId = some id)
    (hlast : (s.openFileIds.filter (fun fid => fid != id)).getLast? = some nextId) :
    handleCloseTab s id =
      { s with
        files := ensureVisible s.files nextId
        openFileIds := s.openFileIds.filter (fun fid => fid != id)
        activeFileId := some nextId
        selectedFileIds := [nextId]
        lastFocusedId := some nextId } := by
  unfold handleCloseTab
  dsimp only
  rw [show (s.activeFileId == some id) = true from by simp [hact]]
  simp only [if_true]
  rw [hlast]

theorem handleCloseTab_active_none (s : AppState) (id : String)
    (hact : s.activeFileId = some id)
    (hlast : (s.openFileIds.filter (fun fid => fid != id)).getLast? = none) :
    handleCloseTab s id =
      { s with
        openFileIds := s.openFileIds.filter (fun fid => fid != id)
        activeFileId := none
        selectedFileIds := []
        lastFocusedId := none } := by
  unfold handleCloseTab
  dsimp only
  rw [show (s.activeFileId == some id) = true from by simp [hact]]
  simp only [if_true]
  rw [hlast]

theorem handleCloseTab_not_active (s : AppState) (id : String)
    (hact : s.activeFileId ≠ some id) :
    handleCloseTab s id =
      { s with
        openFileIds := s.openFileIds.filter (fun fid => fid != id)
        selectedFileIds :=
          if s.selectedFileIds.contains id then s.selectedFileIds.filter (fun sid => sid != id)
          else s.selectedFileIds } := by
  unfold handleCloseTab
  dsimp only
  rw [show (s.activeFileId == some id) = false from by
    cases hb : s.activeFileId == some id with
    | true => exact absurd (by simpa using hb) hact
    | false => rfl]
  simp only [Bool.false_eq_true, if_false]

/-- C4: handleCloseTab removes the id from the tab set; if id was the
active document and at least one tab remains, the new active document is
the last element of the remaining tab set, with the selection recomputed
to exactly that id and the anchor set to it; if no tab remains, active,
selection and anchor are cleared; if id was not active, the id is only
removed from the selection (active, anchor and the tree are untouched).
In particular, closing B in open tabs [A, B, C] with B active yields tabs
[A, C] and active C. -/
theorem closeTab_spec (s : AppState) (id : String) :
    (¬ id ∈ (handleCloseTab s id).openFileIds) ∧
    (handleCloseTab s id).openFileIds = s.openFileIds.filter (fun fid => fid != id) ∧
    (s.activeFileId = some id →
      (∀ last, (s.openFileIds.filter (fun fid => fid != id)).getLast? = some last →
        (handleCloseTab s id).activeFileId = some last ∧
        (handleCloseTab s id).selectedFileIds = [last] ∧
        (handleCloseTab s id).lastFocusedId = some last) ∧
      ((s.openFileIds.filter (fun fid => fid != id)) = [] →
        (handleCloseTab s id).activeFileId = none ∧
        (handleCloseTab s id).selectedFileIds = [] ∧
        (handleCloseTab s id).lastFocusedId = none)) ∧
    (s.activeFileId ≠ some id →
      (handleCloseTab s id).activeFileId = s.activeFileId ∧
      (handleCloseTab s id).lastFocusedId = s.lastFocusedId ∧
      (handleCloseTab s id).files = s.files ∧
      (handleCloseTab s id).selectedFileIds =
        s.selectedFileIds.filter (fun sid => sid != id)) := by
  have hopen : (handleCloseTab s id).openFileIds =
      s.openFileIds.filter (fun fid => fid != id) := by
    by_cases hact : s.activeFileId = some id
    · cases hlast : (s.openFileIds.filter (fun fid => fid != id)).getLast? with
      | some nextId => rw [handleCloseTab_active_some s id nextId hact hlast]
      | none => rw [handleCloseTab_active_none s id hact hlast]
    · rw [handleCloseTab_not_active s id hact]
  refine ⟨?_, hopen, ?_, ?_⟩
  · rw [hopen]
    intro hm
    have := (List.mem_filter.mp hm).2
    simp at this
  · intro hact
    constructor
    · intro last hlast
      rw [handleCloseTab_active_some s id last hact hlast]
      exact ⟨rfl, rfl, rfl⟩
    · intro hnil
      rw [handleCloseTab_active_none s id hact (by rw [hnil]; rfl)]
      exact ⟨rfl, rfl, rfl⟩
  · intro hact
    rw [handleCloseTab_not_active s id hact]
    refine ⟨rfl, rfl, rfl, ?_⟩
    by_cases hsel : s.selectedFileIds.contains id = true
    · rw [if_pos hsel]
    · rw [if_neg hsel]
      have hnm : id ∉ s.selectedFileIds := by
        intro hm
        exact hsel (by simpa using hm)
      exact (List.filter_eq_self.mpr (fun a ha => by
        simp only [bne_iff_ne, ne_eq, decide_eq_true_eq]
        intro he
        exact hnm (he ▸ ha))).symm

theorem closeTab_spec_witness :
    (handleCloseTab tabsState "B").openFileIds = ["A", "C"] ∧
    (handleCloseTab tabsState "B").activeFileId = some "C" ∧
    (handleCloseTab tabsState "B").selectedFileIds = ["C"] ∧
    (handleCloseTab tabsState "B").lastFocusedId = some "C" := by
  have h := closeTab_spec tabsState "B"
  have hc := (h.2.2.1 (by rfl)).1 "C" (by decide)
  refine ⟨?_, hc.1, hc.2.1, hc.2.2⟩
  rw [h.2.1]
  decide

/-- C5: a plain click (no ctrl, no shift) on a tab or on a sidebar item
always yields the one-element selection containing the clicked id and
sets the anchor to that id (the selection is never empty); a plain
sidebar click on a document of kind file additionally appends the id to
the tab set if absent and makes it the active document. -/
theorem plain_click_selection (s : AppState) (id : String) :
    (handleTabClick s id { ctrl := false, shift := false }).selectedFileIds = [id] ∧
    (handleTabClick s id { ctrl := false, shift := false }).lastFocusedId = some id ∧
    (handleTabClick s id { ctrl := false, shift := false }).activeFileId = some id ∧
    (handleSidebarItemClick s id { ctrl := false, shift := false }).selectedFileIds = [id] ∧
    (handleSidebarItemClick s id { ctrl := false, shift := false }).lastFocusedId = some id ∧
    (∀ item, lookup s.files id = some item → item.type = "file" →
      (handleSidebarItemClick s id { ctrl := false, shift := false }).activeFileId = some id ∧
      (handleSidebarItemClick s id { ctrl := false, shift := false }).openFileIds =
        (if s.openFileIds.contains id then s.openFileIds else s.openFileIds ++ [id])) := by
  have he : handleSidebarItemClick s id { ctrl := false, shift := false } =
      (match lookup s.files id with
       | some item =>
         if item.type == "file" then
           { s with
             files := ensureVisible s.files id
             selectedFileIds := [id]
             lastFocusedId := some id
             openFileIds :=
               if s.openFileIds.contains id then s.openFileIds else s.openFileIds ++ [id]
             activeFileId := some id }
         else
           { s with
             files := ensureVisible s.files id
             selectedFileIds := [id]
             lastFocusedId := some id }
       | none =>
         { s with
           files := ensureVisible s.files id
           selectedFileIds := [id]
           lastFocusedId := some id }) := rfl
  refine ⟨rfl, rfl, rfl, ?_, ?_, ?_⟩
  · rw [he]
    cases hit : lookup s.files id with
    | none => rfl
    | some item =>
      dsimp only
      by_cases hty : (item.type == "file") = true
      · rw [if_pos hty]
      · rw [if_neg hty]
  · rw [he]
    cases hit : lookup s.files id with
    | none => rfl
    | some item =>
      dsimp only
      by_cases hty : (item.type == "file") = true
      · rw [if_pos hty]
      · rw [if_neg hty]
  · intro item hit hty
    rw [he, hit]
    dsimp only
    rw [if_pos (show (item.type == "file") = true from by simp [hty])]
    exact ⟨rfl, rfl⟩

theorem plain_click_selection_witness :
    (handleTabClick sideState "b" { ctrl := false, shift := false }).selectedFileIds = ["b"] ∧
    (handleSidebarItemClick sideState "b"
      { ctrl := false, shift := false }).selectedFileIds = ["b"] ∧
    (handleSidebarItemClick sideState "b"
      { ctrl := false, shift := false }).activeFileId = some "b" ∧
    (handleSidebarItemClick sideState "b"
      { ctrl := false, shift := false }).openFileIds = ["b"] := by
  have h := plain_click_selection sideState "b"
  have hf := h.2.2.2.2.2 exRootFile (by decide) rfl
  refine ⟨h.1, h.2.2.2.1, hf.1, ?_⟩
  rw [hf.2]
  decide

theorem migrate_serialize_roundtrip (d : FileDoc) (hty : d.type ≠ "")
    (hpid : d.parentId ≠ some "") : migrateDoc (serializeDoc d) = d := by
  obtain ⟨di, dn, dc, dty, dpi, dlm, dpa, dex, dch, dun⟩ := d
  simp only [FileDoc.type] at hty
  simp only [FileDoc.parentId] at hpid
  unfold migrateDoc serializeDoc
  dsimp only
  rw [if_neg (show ¬ (dty == "") = true from by simpa using hty)]
  cases dpi with
  | none => rfl
  | some p =>
    dsimp only
    rw [if_neg (show ¬ (p == "") = true from by
      intro hb
      exact hpid (congrArg some (by simpa using hb)))]

/-- C7: loading a persisted document payload that omits the
newly-introduced fields synthesizes the documented defaults (kind file,
parent null, expansion false, transcript empty, unsaved false) without
error; every field that is present is preserved, so serializing a
current-format document (or a whole tree) and loading it back reproduces
an equal document (tree). -/
theorem migration_defaults_roundtrip :
    (∀ (i n c : String) (lm : Nat),
      migrateDoc { id := i, name := n, content := c, lastModified := lm,
                   typeF := none, parentIdF := none, pathF := none, isExpandedF := none,
                   chatHistoryF := none, isUnsavedF := none } =
      { id := i, name := n, content := c, type := "file", parentId := none,
        lastModified := lm, path := none, isExpanded := false, chatHistory := [],
        isUnsaved := false }) ∧
    (∀ d : FileDoc, d.type ≠ "" → d.parentId ≠ some "" →
      migrateDoc (serializeDoc d) = d) ∧
    (∀ docs : List FileDoc, (∀ d ∈ docs, d.type ≠ "" ∧ d.parentId ≠ some "") →
      loadFiles (docs.map serializeDoc) = docs) := by
  refine ⟨fun i n c lm => rfl, migrate_serialize_roundtrip, ?_⟩
  intro docs hd
  unfold loadFiles
  rw [List.map_map]
  have hcong : ∀ d ∈ docs, (migrateDoc ∘ serializeDoc) d = d := by
    intro d hdm
    exact migrate_serialize_roundtrip d (hd d hdm).1 (hd d hdm).2
  rw [List.map_congr_left hcong]
  simp

theorem migration_defaults_roundtrip_witness :
    migrateDoc legacyStored =
      { id := "w", name := "Welcome.md", content := "hi", type := "file", parentId := none,
        lastModified := 5, path := none, isExpanded := false, chatHistory := [],
        isUnsaved := false } ∧
    loadFiles [serializeDoc modernDoc] = [modernDoc] := by
  have h := migration_defaults_roundtrip
  constructor
  · exact h.1 "w" "Welcome.md" "hi" 5
  · exact h.2.2 [modernDoc] (by decide)

theorem chatLocalGo_count_le (model : ModelOracle) (tools : List ToolDef) (ipc : Bool)
    (oracle : ToolOracle) :
    ∀ fuel msgs, (chatLocalGo model tools ipc oracle fuel msgs).2 ≤ fuel := by
  intro fuel
  induction fuel with
  | zero => intro msgs; simp [chatLocalGo]
  | succ n ih =>
    intro msgs
    unfold chatLocalGo
    cases hm : model msgs with
    | error e => simp
    | ok resp =>
      dsimp only
      by_cases ht : resp.tool_calls.isEmpty = true
      · rw [if_pos ht]; simp
      · rw [if_neg ht]
        dsimp only
        have := ih (msgs ++ resp :: resp.tool_calls.map (mkToolMsg tools ipc oracle))
        omega

theorem chatLocalGo_exhaust (model : ModelOracle) (tools : List ToolDef) (ipc : Bool)
    (oracle : ToolOracle) (hall : ∀ msgs r, model msgs = .ok r → r.tool_calls ≠ []) :
    ∀ fuel msgs,
      (chatLocalGo model tools ipc oracle fuel msgs).1 =
        .ok "Error: Maximum conversation turns exceeded during tool execution." ∨
      ∃ e, (chatLocalGo model tools ipc oracle fuel msgs).1 = .error e := by
  intro fuel
  induction fuel with
  | zero => intro msgs; left; rfl
  | succ n ih =>
    intro msgs
    unfold chatLocalGo
    cases hm : model msgs with
    | error e => right; exact ⟨e, rfl⟩
    | ok resp =>
      have hne : ¬ resp.tool_calls.isEmpty = true := by
        intro hb
        exact hall msgs resp hm (List.isEmpty_iff.mp hb)
      dsimp only
      rw [if_neg hne]
      dsimp only
      exact ih (msgs ++ resp :: resp.tool_calls.map (mkToolMsg tools ipc oracle))

theorem chatGeminiGo_count_le (model : GeminiOracle) (tools : List ToolDef) (ipc : Bool)
    (oracle : ToolOracle) (lang : String) :
    ∀ fuel resp hist, (chatGeminiGo model tools ipc oracle lang fuel resp hist).2 ≤ fuel := by
  intro fuel
  induction fuel with
  | zero => intro resp hist; simp [chatGeminiGo]
  | succ n ih =>
    intro resp hist
    unfold chatGeminiGo
    by_cases hf : resp.functionCalls.isEmpty = true
    · rw [if_pos hf]; simp
    · rw [if_neg hf]
      dsimp only
      cases hm : model (hist ++ [GeminiSend.functionResponses
          (resp.functionCalls.map (fun fc =>
            (fc.name, execToolCallGemini tools ipc oracle fc)))]) with
      | error e => simp
      | ok resp2 =>
        dsimp only
        have := ih resp2 (hist ++ [GeminiSend.functionResponses
          (resp.functionCalls.map (fun fc =>
            (fc.name, execToolCallGemini tools ipc oracle fc)))])
        omega

/-- C2 amended: for one user message, the OpenAI-compatible branch
performs at most 10 model round trips and, when the model keeps
requesting tool calls, ends the turn with the max-turns error message (or
a propagated transport error); the native Gemini branch performs at most
11 round trips (one initial send plus up to 10 tool-loop turns). -/
theorem turn_ceiling (model : ModelOracle) (tools : List ToolDef) (ipc : Bool)
    (oracle : ToolOracle) (messages : List OAIMessage) (gmodel : GeminiOracle)
    (lang newMessage : String) :
    (chatWithLocalAI model tools ipc oracle messages).2 ≤ 10 ∧
    ((∀ msgs r, model msgs = .ok r → r.tool_calls ≠ []) →
      (chatWithLocalAI model tools ipc oracle messages).1 =
        .ok "Error: Maximum conversation turns exceeded during tool execution." ∨
      ∃ e, (chatWithLocalAI model tools ipc oracle messages).1 = .error e) ∧
    (chatGemini gmodel tools ipc oracle lang newMessage).2 ≤ 11 := by
  refine ⟨chatLocalGo_count_le model tools ipc oracle 10 messages, ?_, ?_⟩
  · intro hall
    exact chatLocalGo_exhaust model tools ipc oracle hall 10 messages
  · unfold chatGemini
    cases hm : gmodel [GeminiSend.userText newMessage] with
    | error e => simp
    | ok resp =>
      dsimp only
      have := chatGeminiGo_count_le gmodel tools ipc oracle lang 10 resp
        [GeminiSend.userText newMessage]
      omega

theorem turn_ceiling_witness :
    (chatWithLocalAI alwaysToolsModel [] false noContentToolOracle []).2 ≤ 10 ∧
    ((chatWithLocalAI alwaysToolsModel [] false noContentToolOracle []).1 =
        .ok "Error: Maximum conversation turns exceeded during tool execution." ∨
      ∃ e, (chatWithLocalAI alwaysToolsModel [] false noContentToolOracle []).1 = .error e) ∧
    (chatGemini alwaysFCOracle [] false noContentToolOracle "en" "hi").2 ≤ 11 := by
  have h := turn_ceiling alwaysToolsModel [] false noContentToolOracle []
    alwaysFCOracle "en" "hi"
  refine ⟨h.1, h.2.1 ?_, h.2.2⟩
  intro msgs r hr
  simp only [alwaysToolsModel, Except.ok.injEq] at hr
  rw [← hr]
  decide

/-- C2 counterexample: with a Gemini backend that requests a function
call on every round trip, the native branch performs 11 model round trips
for one user message, exceeding 10, and the turn ends with the default
reply text rather than a max-turns error message. -/
theorem gemini_eleven_roundtrips :
    (chatGemini alwaysFCOracle [] false noContentToolOracle "en" "hi").2 = 11 ∧
    ¬ ((chatGemini alwaysFCOracle [] false noContentToolOracle "en" "hi").2 ≤ 10) ∧
    (chatGemini alwaysFCOracle [] false noContentToolOracle "en" "hi").1 =
      .ok "I couldn\x27t understand that." := by
  refine ⟨?_, ?_, ?_⟩
  · rfl
  · decide
  · rfl

/-- C3: a tool call whose descriptor cannot be resolved (unknown tool
name, missing server affinity, or no IPC bridge) and a tool call whose
execution rejects both produce a plain error text in the result slot of
that call, in both backend branches; the loop then appends one result message
per requested call and continues the turn instead of aborting. -/
theorem tool_failure_contained (tools : List ToolDef) (ipc : Bool) (oracle : ToolOracle)
    (tc : ToolCall) (fc : GeminiFC) :
    (tools.find? (fun t => t.fname == tc.fname) = none →
      execToolCallLocal tools ipc oracle tc =
        "Error: MCP tools are only available in the desktop app.") ∧
    (∀ td, tools.find? (fun t => t.fname == tc.fname) = some td →
      strTruthy td.serverId = none →
      execToolCallLocal tools ipc oracle tc =
        "Error: MCP tools are only available in the desktop app.") ∧
    (ipc = false →
      execToolCallLocal tools ipc oracle tc =
        "Error: MCP tools are only available in the desktop app.") ∧
    (∀ td sid m, tools.find? (fun t => t.fname == tc.fname) = some td →
      strTruthy td.serverId = some sid → ipc = true →
      oracle sid tc.fname tc.args = .error m →
      execToolCallLocal tools ipc oracle tc = "Error executing tool: " ++ m) ∧
    (tools.find? (fun t => t.fname == fc.name) = none →
      execToolCallGemini tools ipc oracle fc = "Error: Tool unavailable.") ∧
    (∀ td, tools.find? (fun t => t.fname == fc.name) = some td →
      strTruthy td.serverId = none →
      execToolCallGemini tools ipc oracle fc = "Error: Tool unavailable.") ∧
    (ipc = false →
      execToolCallGemini tools ipc oracle fc = "Error: Tool unavailable.") ∧
    (∀ td sid m, tools.find? (fun t => t.fname == fc.name) = some td →
      strTruthy td.serverId = some sid → ipc = true →
      oracle sid fc.name fc.args = .error m →
      execToolCallGemini tools ipc oracle fc = "Error: " ++ m) ∧
    (∀ (model : ModelOracle) (n : Nat) (msgs : List OAIMessage) (resp : OAIMessage),
      model msgs = .ok resp → resp.tool_calls ≠ [] →
      chatLocalGo model tools ipc oracle (n + 1) msgs =
        ((chatLocalGo model tools ipc oracle n
            (msgs ++ resp :: resp.tool_calls.map (mkToolMsg tools ipc oracle))).1,
         (chatLocalGo model tools ipc oracle n
            (msgs ++ resp :: resp.tool_calls.map (mkToolMsg tools ipc oracle))).2 + 1)) ∧
    (∀ (gmodel : GeminiOracle) (lang : String) (n : Nat) (resp : GeminiResponse)
        (hist : List GeminiSend) (resp2 : GeminiResponse),
      resp.functionCalls ≠ [] →
      gmodel (hist ++ [GeminiSend.functionResponses
        (resp.functionCalls.map (fun g => (g.name, execToolCallGemini tools ipc oracle g)))]) =
          .ok resp2 →
      chatGeminiGo gmodel tools ipc oracle lang (n + 1) resp hist =
        ((chatGeminiGo gmodel tools ipc oracle lang n resp2
            (hist ++ [GeminiSend.functionResponses
              (resp.functionCalls.map (fun g =>
                (g.name, execToolCallGemini tools ipc oracle g)))])).1,
         (chatGeminiGo gmodel tools ipc oracle lang n resp2
            (hist ++ [GeminiSend.functionResponses
              (resp.functionCalls.map (fun g =>
                (g.name, execToolCallGemini tools ipc oracle g)))])).2 + 1)) := by
  refine ⟨?_, ?_, ?_, ?_, ?_, ?_, ?_, ?_, ?_, ?_⟩
  · intro hf
    unfold execToolCallLocal
    rw [hf]
  · intro td hf hs
    unfold execToolCallLocal
    rw [hf]
    dsimp only
    rw [hs]
  · intro hipc
    unfold execToolCallLocal
    cases hf : tools.find? (fun t => t.fname == tc.fname) with
    | none => rfl
    | some td =>
      dsimp only
      cases hs : strTruthy td.serverId with
      | none => rfl
      | some sid =>
        dsimp only
        rw [hipc]
        rfl
  · intro td sid m hf hs hipc ho
    unfold execToolCallLocal
    rw [hf]
    dsimp only
    rw [hs]
    dsimp only
    rw [hipc]
    simp only [if_true]
    rw [ho]
  · intro hf
    unfold execToolCallGemini
    rw [hf]
  · intro td hf hs
    unfold execToolCallGemini
    rw [hf]
    dsimp only
    rw [hs]
  · intro hipc
    unfold execToolCallGemini
    cases hf : tools.find? (fun t => t.fname == fc.name) with
    | none => rfl
    | some td =>
      dsimp only
      cases hs : strTruthy td.serverId with
      | none => rfl
      | some sid =>
        dsimp only
        rw [hipc]
        rfl
  · intro td sid m hf hs hipc ho
    unfold execToolCallGemini
    rw [hf]
    dsimp only
    rw [hs]
    dsimp only
    rw [hipc]
    simp only [if_true]
    rw [ho]
  · intro model n msgs resp hm hne
    conv_lhs => unfold chatLocalGo
    rw [hm]
    dsimp only
    rw [if_neg (by
      intro hb
      exact hne (List.isEmpty_iff.mp hb))]
  · intro gmodel lang n resp hist resp2 hne hm
    conv_lhs => unfold chatGeminiGo
    rw [if_neg (by
      intro hb
      exact hne (List.isEmpty_iff.mp hb))]
    dsimp only
    rw [hm]

theorem tool_failure_contained_witness :
    execToolCallLocal [] false noContentToolOracle { id := "1", fname := "t", args := "" } =
      "Error: MCP tools are only available in the desktop app." ∧
    execToolCallGemini [] false noContentToolOracle { name := "t", args := "" } =
      "Error: Tool unavailable." ∧
    execToolCallLocal [exTool] true failToolOracle { id := "1", fname := "t", args := "" } =
      "Error executing tool: boom" ∧
    execToolCallGemini [exTool] true failToolOracle { name := "t", args := "" } =
      "Error: boom" := by
  have h1 := tool_failure_contained [] false noContentToolOracle ⟨"1", "t", ""⟩ ⟨"t", ""⟩
  have h2 := tool_failure_contained [exTool] true failToolOracle ⟨"1", "t", ""⟩ ⟨"t", ""⟩
  refine ⟨h1.1 rfl, h1.2.2.2.2.1 rfl, ?_, ?_⟩
  · exact h2.2.2.2.1 exTool "srv" "boom" rfl rfl rfl rfl
  · exact h2.2.2.2.2.2.2.2.1 exTool "srv" "boom" rfl rfl rfl rfl

/-- C9 counterexample: a config that is present in the list but disabled
is skipped silently by the mcp-connect handler and receives no reported
outcome at all, so not every config in the list gets an individual
outcome. -/
theorem mcp_connect_disabled_no_outcome :
    disabledCfg.enabled = false ∧
    (mcpConnect [] [disabledCfg] okConnect).2 = [] := ⟨rfl, rfl⟩

theorem mcpConnect_fold_mono (connect : ConnectOracle) :
    ∀ (configs : List MCPConfig) (acc : List String × List MCPOutcome) (o : MCPOutcome),
      o ∈ acc.2 → o ∈ (configs.foldl (mcpConnectStep connect) acc).2 := by
  intro configs
  induction configs with
  | nil => intro acc o ho; exact ho
  | cons c cs ih =>
    intro acc o ho
    rw [List.foldl_cons]
    apply ih
    unfold mcpConnectStep
    by_cases he : (!c.enabled) = true
    · rw [if_pos he]; exact ho
    · rw [if_neg he]
      by_cases ht : (c.transportType != "stdio" && c.transportType != "sse") = true
      · rw [if_pos ht]; exact ho
      · rw [if_neg ht]
        cases connect c with
        | ok u => exact List.mem_append_left _ ho
        | error e => exact List.mem_append_left _ ho

/-- C9 amended: mcp-connect always rebuilds the live client set from
scratch (the previously open clients are all closed first, so the result
does not depend on them); a connection failure for one config does not
prevent the others; and every ENABLED config with a known transport type
(stdio or sse) receives an individually reported outcome — disabled
configs and unknown transport types are skipped with no outcome. -/
theorem mcp_connect_spec (prev : List String) (configs : List MCPConfig)
    (connect : ConnectOracle) :
    (mcpConnect prev configs connect = mcpConnect [] configs connect) ∧
    (∀ cfg ∈ configs, cfg.enabled = true →
      (cfg.transportType = "stdio" ∨ cfg.transportType = "sse") →
      ∃ o ∈ (mcpConnect prev configs connect).2, o.id = cfg.id ∧
        (connect cfg = .ok () → o.status = "connected" ∧ o.error = none) ∧
        (∀ e, connect cfg = .error e → o.status = "error" ∧ o.error = some e)) := by
  constructor
  · rfl
  · have main : ∀ (cfgs : List MCPConfig) (acc : List String × List MCPOutcome),
        ∀ cfg ∈ cfgs, cfg.enabled = true →
        (cfg.transportType = "stdio" ∨ cfg.transportType = "sse") →
        ∃ o ∈ (cfgs.foldl (mcpConnectStep connect) acc).2, o.id = cfg.id ∧
          (connect cfg = .ok () → o.status = "connected" ∧ o.error = none) ∧
          (∀ e, connect cfg = .error e → o.status = "error" ∧ o.error = some e) := by
      intro cfgs
      induction cfgs with
      | nil => intro acc cfg hmem; exact absurd hmem (List.not_mem_nil cfg)
      | cons c cs ih =>
        intro acc cfg hmem hen hty
        rcases List.mem_cons.mp hmem with rfl | hmem2
        · rw [List.foldl_cons]
          have hstep : (mcpConnectStep connect acc cfg).2 = acc.2 ++
              [match connect cfg with
               | .ok _ => ({ id := cfg.id, status := "connected", error := none } : MCPOutcome)
               | .error e => { id := cfg.id, status := "error", error := some e }] := by
            unfold mcpConnectStep
            rw [if_neg (by rw [hen]; simp)]
            rw [if_neg (by
              rcases hty with h | h <;> rw [h] <;> simp)]
            cases connect cfg with
            | ok u => rfl
            | error e => rfl
          cases hc : connect cfg with
          | ok u =>
            refine ⟨{ id := cfg.id, status := "connected", error := none }, ?_, rfl, ?_, ?_⟩
            · apply mcpConnect_fold_mono connect cs
              rw [hstep, hc]
              exact List.mem_append_right _ (List.mem_singleton.mpr rfl)
            · intro _; exact ⟨rfl, rfl⟩
            · intro e he; exact absurd he (by simp)
          | error e0 =>
            refine ⟨{ id := cfg.id, status := "error", error := some e0 }, ?_, rfl, ?_, ?_⟩
            · apply mcpConnect_fold_mono connect cs
              rw [hstep, hc]
              exact List.mem_append_right _ (List.mem_singleton.mpr rfl)
            · intro hok; exact absurd hok (by simp)
            · intro e he
              have : e0 = e := by simpa using he
              rw [this]
              exact ⟨rfl, rfl⟩
        · rw [List.foldl_cons]
          exact ih (mcpConnectStep connect acc c) cfg hmem2 hen hty
    intro cfg hmem hen hty
    exact main configs ([], []) cfg hmem hen hty

theorem mcp_connect_spec_witness :
    (mcpConnect ["old"] [disabledCfg, enabledCfg] okConnect =
      mcpConnect [] [disabledCfg, enabledCfg] okConnect) ∧
    (∃ o ∈ (mcpConnect ["old"] [disabledCfg, enabledCfg] okConnect).2, o.id = enabledCfg.id ∧
      (okConnect enabledCfg = .ok () → o.status = "connected" ∧ o.error = none) ∧
      (∀ e, okConnect enabledCfg = .error e → o.status = "error" ∧ o.error = some e)) := by
  have h := mcp_connect_spec ["old"] [disabledCfg, enabledCfg] okConnect
  exact ⟨h.1, h.2 enabledCfg (by decide) rfl (Or.inr rfl)⟩
